/-
  Verification of the tree-reaction-algorithms repository.

  Shallow embedding of the two Python source files:
    - tree_layout_algorithm.py  (class TreeLayoutAlgorithm): static one-shot layout
    - tree_reaction_simulation.py (class Branch + grow_branch_instantly): animated growth

  Modelling conventions:
    - Python floats are modelled over an arbitrary linear ordered field so that
      claims that do not depend on trigonometry can be evaluated on rationals;
      the geometric claims are instantiated at the real numbers.
    - math.cos / math.sin are passed as function parameters cosF / sinF
      (instantiated with Real.cos / Real.sin for the geometric statements);
      math.pi is passed as the parameter piA.
    - random.uniform(a, b) = a + (b - a) * t where t is the next draw of an
      explicit stream of draws (t ranges over [0, 1]); random.choice is
      likewise fed from an explicit stream.  Streams are indexed by counters
      threaded through the computation in program order.
    - Python dicts keep insertion order, hence node collections are lists
      (whose elements are unique in the intended use).  CPython enumerates a
      set (as in list(all_node_ids - linked_to)) in an implementation-defined
      order that is NOT insertion order; this order is modelled by an explicit
      parameter setOrd which is assumed to be a permutation.
-/
import Mathlib

namespace TreeReaction

/-! ## Layout algorithm: TreeLayoutAlgorithm (tree_layout_algorithm.py) -/

/-- Configuration of TreeLayoutAlgorithm.__init__ (branch_angle, branch_factor,
min_branch_length, max_depth). -/
structure LayoutCfg (α : Type) where
  branch_angle : α
  branch_factor : α
  min_branch_length : α
  max_depth : ℕ

/-- self.scaling_configs: the ordered bands of TreeLayoutAlgorithm.__init__.
A band is ((min_count, max_count), (base_length, base_spacing)); the
max_count float('inf') of the last band is modelled as Option.none. -/
def scaling_configs : List ((ℤ × Option ℤ) × (ℤ × ℤ)) :=
  [((0, some 10), (100, 60)),
   ((11, some 30), (120, 80)),
   ((31, some 60), (150, 100)),
   ((61, none), (180, 120))]

/-- min_count <= node_count <= max_count (max_count = none means +infinity). -/
def band_matches (b : ℤ × Option ℤ) (node_count : ℤ) : Bool :=
  b.1 ≤ node_count && (match b.2 with
    | some mx => decide (node_count ≤ mx)
    | none => true)

/-- TreeLayoutAlgorithm.calculate_dynamic_parameters: first band (in dict
order) containing node_count wins; fallback to the (61, inf) band. -/
def calculate_dynamic_parameters (node_count : ℤ) : ℤ × ℤ :=
  match scaling_configs.find? (fun e => band_matches e.1 node_count) with
  | some e => e.2
  | none => (180, 120)

/-- TreeLayoutAlgorithm.build_tree_structure: initialize every node id of the
nodes dict to an empty child list, then for each link whose 'from' and 'to'
are both keys of the structure (i.e. are input node ids), append the 'to' to
the 'from' node's child list.  root_node is taken (and ignored) exactly as in
the source.  The dict is modelled as a function from node id to child list
whose domain is the node list. -/
def build_tree_structure (root_node : ℕ) (nodes : List ℕ) (links : List (ℕ × ℕ)) :
    ℕ → List ℕ :=
  links.foldl
    (fun ts l =>
      if l.1 ∈ nodes ∧ l.2 ∈ nodes then
        fun n => if n = l.1 then ts n ++ [l.2] else ts n
      else ts)
    (fun _ => [])

/-- TreeLayoutAlgorithm.find_root_nodes: roots are the node ids that never
occur as a link target; root_nodes = list(all_node_ids - linked_to) enumerates
a Python set, whose order is implementation defined: setOrd models that
enumeration (a permutation of the ids, in an arbitrary order).  If no root is
found, fall back to the first key of the nodes dict (insertion order). -/
def find_root_nodes (nodes : List ℕ) (links : List (ℕ × ℕ))
    (setOrd : List ℕ → List ℕ) : List ℕ :=
  let linked_to := links.map (·.2)
  let root_nodes := setOrd (nodes.filter (fun n => n ∉ linked_to))
  if root_nodes.isEmpty then [nodes.headI] else root_nodes

/-- random.uniform(a, b) = a + (b - a) * t, where t in [0, 1] is the draw of
the underlying generator. -/
def random_uniform {α : Type} [LinearOrderedField α] (a b t : α) : α :=
  a + (b - a) * t

/-- The angular offset computed for child number i of num_branches children
(lines 180-185 of tree_layout_algorithm.py): 0 for a single child, otherwise
(i / (num_branches - 1)) * spread - spread / 2 with spread = branch_angle * 2. -/
def branch_delta {α : Type} [LinearOrderedField α] (branch_angle : α)
    (num_branches i : ℕ) : α :=
  if num_branches = 1 then 0
  else
    let spread := branch_angle * 2
    ((i : α) / ((num_branches : α) - 1)) * spread - spread / 2

/-- The mutable state threaded through place_nodes_recursively:
positioned_nodes (a Python set), node_positions (a Python dict, i.e. an
insertion-ordered association list), and the position of the random stream. -/
structure PlaceState (α : Type) where
  positioned : Finset ℕ
  pos : List (ℕ × (α × α))
  rix : ℕ

variable {α : Type} [LinearOrderedField α]

mutual

/-- TreeLayoutAlgorithm.place_nodes_recursively: stop at max depth or below
the minimum length, otherwise place the children of node_id in order.
rng n is the n-th draw (in [0,1]) of the global random generator, consumed by
random.uniform(0.8, branch_factor). -/
def place_nodes_recursively (cfg : LayoutCfg α) (cosF sinF : α → α) (rng : ℕ → α)
    (ts : ℕ → List ℕ) (node_id : ℕ) (start_x start_y angle length : α)
    (depth : ℕ) (st : PlaceState α) : PlaceState α :=
  -- Stop if we've reached max depth or minimum length
  if cfg.max_depth ≤ depth ∨ length < cfg.min_branch_length then st
  else
    let children := ts node_id
    if children.isEmpty then st
    else
      place_children cfg cosF sinF rng ts start_x start_y angle length (depth + 1)
        children.length 0 children st
termination_by (cfg.max_depth + 1 - depth, 0)
decreasing_by
  simp_wf
  apply Prod.Lex.left
  omega

/-- The for-loop of place_nodes_recursively over (i, child_id) in
enumerate(children): skip a child already positioned, otherwise record its
position and recurse into it at depth + 1 (passed here already incremented as
child_depth). -/
def place_children (cfg : LayoutCfg α) (cosF sinF : α → α) (rng : ℕ → α)
    (ts : ℕ → List ℕ) (start_x start_y angle length : α) (child_depth : ℕ)
    (num_branches i : ℕ) (cs : List ℕ) (st : PlaceState α) : PlaceState α :=
  match cs with
  | [] => st
  | child_id :: rest =>
    if child_id ∈ st.positioned then
      place_children cfg cosF sinF rng ts start_x start_y angle length child_depth
        num_branches (i + 1) rest st
    else
      let delta := branch_delta cfg.branch_angle num_branches i
      let child_angle := angle + delta
      let end_x := start_x + length * cosF child_angle
      let end_y := start_y + length * sinF child_angle
      let new_length := length * random_uniform (8/10 : α) cfg.branch_factor (rng st.rix)
      let st1 : PlaceState α :=
        { positioned := insert child_id st.positioned
          pos := st.pos ++ [(child_id, (end_x, end_y))]
          rix := st.rix + 1 }
      let st2 := place_nodes_recursively cfg cosF sinF rng ts child_id end_x end_y
        child_angle new_length child_depth st1
      place_children cfg cosF sinF rng ts start_x start_y angle length child_depth
        num_branches (i + 1) rest st2
termination_by (cfg.max_depth + 1 - child_depth, cs.length + 1)
decreasing_by
  all_goals simp_wf
  · apply Prod.Lex.right'
    · omega
    · omega
  · apply Prod.Lex.right'
    · omega
    · omega
  · apply Prod.Lex.right'
    · omega
    · omega

end

/-- TreeLayoutAlgorithm.layout_tree: empty input gives an empty mapping;
otherwise choose base_length from the node count, choose the root, build the
tree structure, place the root at (root_x, root_y) and recurse from it with
angle -pi/2 (piA models math.pi), initial length base_length, depth 1.
Returns node_positions as an insertion-ordered association list. -/
def layout_tree (cfg : LayoutCfg α) (cosF sinF : α → α) (piA : α) (rng : ℕ → α)
    (setOrd : List ℕ → List ℕ) (nodes : List ℕ) (links : List (ℕ × ℕ))
    (root_x root_y : α) : List (ℕ × (α × α)) :=
  if nodes.isEmpty then []
  else
    let total_nodes := (nodes.length : ℤ)
    let base_length := ((calculate_dynamic_parameters total_nodes).1 : α)
    let root_nodes := find_root_nodes nodes links setOrd
    let root_node := root_nodes.headI
    let ts := build_tree_structure root_node nodes links
    let st0 : PlaceState α :=
      { positioned := {root_node}
        pos := [(root_node, (root_x, root_y))]
        rix := 0 }
    (place_nodes_recursively cfg cosF sinF rng ts root_node root_x root_y
      (-(piA / 2)) base_length 1 st0).pos

/-- Reachability from root in a tree structure: root itself, and any child of
a reachable node. -/
inductive Reach (ts : ℕ → List ℕ) (root : ℕ) : ℕ → Prop
  | refl : Reach ts root root
  | step {m c : ℕ} : Reach ts root m → c ∈ ts m → Reach ts root c

/-! ## Growth simulation: class Branch (tree_reaction_simulation.py) -/

/-- The module-level growth constants of tree_reaction_simulation.py
(GROWTH_SPEED, BRANCH_ANGLE, BRANCH_FACTOR, MIN_BRANCH_LENGTH, MAX_DEPTH). -/
structure SimCfg (α : Type) where
  growth_speed : α
  branch_angle : α
  branch_factor : α
  min_branch_length : α
  max_depth : ℕ

/-- random.choice(l): an element of l selected by the generator; the draw k
selects index k % len(l). -/
def random_choice (l : List ℕ) (k : ℕ) : ℕ :=
  l.getD (k % l.length) 0

/-- The two streams feeding random.choice([2, 3]) (nb) and
random.uniform (u, draws in [0, 1]); each is consumed via its own counter. -/
structure SimRng (α : Type) where
  nb : ℕ → ℕ
  u : ℕ → α

/-- A Branch object: start, angle, length (current, 0 at construction),
target_length, depth, finished, children, static — the fields set by
Branch.__init__, in order. -/
inductive Branch (α : Type) where
  | mk (start : α × α) (angle : α) (length : α) (target_length : α)
       (depth : ℕ) (finished : Bool) (children : List (Branch α)) (static : Bool)

namespace Branch

variable {α : Type}

def start : Branch α → α × α
  | .mk s _ _ _ _ _ _ _ => s

def angle : Branch α → α
  | .mk _ a _ _ _ _ _ _ => a

def length : Branch α → α
  | .mk _ _ l _ _ _ _ _ => l

def target_length : Branch α → α
  | .mk _ _ _ t _ _ _ _ => t

def depth : Branch α → ℕ
  | .mk _ _ _ _ d _ _ _ => d

def finished : Branch α → Bool
  | .mk _ _ _ _ _ f _ _ => f

def children : Branch α → List (Branch α)
  | .mk _ _ _ _ _ _ ch _ => ch

def static : Branch α → Bool
  | .mk _ _ _ _ _ _ _ st => st

/-- Branch.__init__(start, angle, length, depth): current length 0, target
length = length, not finished, no children, not static. -/
def init [Zero α] (start : α × α) (angle len : α) (depth : ℕ) : Branch α :=
  .mk start angle 0 len depth false [] false

@[simp] theorem start_mk (s : α × α) (a l t : α) (d : ℕ) (f : Bool)
    (ch : List (Branch α)) (st : Bool) : (Branch.mk s a l t d f ch st).start = s := rfl

@[simp] theorem angle_mk (s : α × α) (a l t : α) (d : ℕ) (f : Bool)
    (ch : List (Branch α)) (st : Bool) : (Branch.mk s a l t d f ch st).angle = a := rfl

@[simp] theorem length_mk (s : α × α) (a l t : α) (d : ℕ) (f : Bool)
    (ch : List (Branch α)) (st : Bool) : (Branch.mk s a l t d f ch st).length = l := rfl

@[simp] theorem target_length_mk (s : α × α) (a l t : α) (d : ℕ) (f : Bool)
    (ch : List (Branch α)) (st : Bool) :
    (Branch.mk s a l t d f ch st).target_length = t := rfl

@[simp] theorem depth_mk (s : α × α) (a l t : α) (d : ℕ) (f : Bool)
    (ch : List (Branch α)) (st : Bool) : (Branch.mk s a l t d f ch st).depth = d := rfl

@[simp] theorem finished_mk (s : α × α) (a l t : α) (d : ℕ) (f : Bool)
    (ch : List (Branch α)) (st : Bool) : (Branch.mk s a l t d f ch st).finished = f := rfl

@[simp] theorem children_mk (s : α × α) (a l t : α) (d : ℕ) (f : Bool)
    (ch : List (Branch α)) (st : Bool) : (Branch.mk s a l t d f ch st).children = ch := rfl

@[simp] theorem static_mk (s : α × α) (a l t : α) (d : ℕ) (f : Bool)
    (ch : List (Branch α)) (st : Bool) : (Branch.mk s a l t d f ch st).static = st := rfl

/-- Branch.get_end: start + length * (cos angle, sin angle), computed from the
CURRENT length field. -/
def get_end [LinearOrderedField α] (cosF sinF : α → α) (b : Branch α) : α × α :=
  let dx := b.length * cosF b.angle
  let dy := b.length * sinF b.angle
  (b.start.1 + dx, b.start.2 + dy)

/-- Replace the children list (models in-place mutation of self.children
elements by the update loop). -/
def with_children : Branch α → List (Branch α) → Branch α
  | .mk s a l t d f _ st, ch => .mk s a l t d f ch st

mutual

/-- Number of Branch objects in the subtree (for termination measures). -/
def count : Branch α → ℕ
  | .mk _ _ _ _ _ _ ch _ => 1 + count_list ch

def count_list : List (Branch α) → ℕ
  | [] => 0
  | c :: rest => count c + count_list rest

end

/-- Termination measure of the per-frame update recursion: the node count
weighted so that a freshly spawned child (count 1, depth one deeper, spawned
only when depth < max_depth) measures strictly below its parent. -/
def measure (md : ℕ) (b : Branch α) : ℕ :=
  count b * (md + 2) + ((md + 1) - min b.depth (md + 1))

end Branch

/-- The candidate-creation loop of Branch.grow (for _ in range(num_branches)):
each iteration draws an angle offset (only when depth != 1) and a length
factor, and appends a fresh child branch only when its target length is at
least min_branch_length.  Returns the created children in creation order and
the new position of the uniform stream. -/
def spawn_children {α : Type} [LinearOrderedField α] (cfg : SimCfg α)
    (rng : SimRng α) (endp : α × α) (angle target_length : α) (depth : ℕ) :
    ℕ → ℕ → List (Branch α) × ℕ
  | 0, cu => ([], cu)
  | n + 1, cu =>
    let dp := if depth = 1 then ((0 : α), cu)
      else (random_uniform (-cfg.branch_angle) cfg.branch_angle (rng.u cu), cu + 1)
    let new_length := target_length * random_uniform (8/10 : α) cfg.branch_factor (rng.u dp.2)
    let cu2 := dp.2 + 1
    let rest := spawn_children cfg rng endp angle target_length depth n cu2
    ((if cfg.min_branch_length ≤ new_length then
        Branch.init endp (angle + dp.1) new_length (depth + 1) :: rest.1
      else rest.1), rest.2)

/-- Branch.grow: while below the target length, lengthen by growth_speed and
clamp to the target; once the target is reached, spawn 2-3 children exactly
once (only if depth < MAX_DEPTH and target_length > MIN_BRANCH_LENGTH), and
become static when finished with every child static.  The pair s = (choice
counter, uniform counter) threads the random streams. -/
def Branch.grow {α : Type} [LinearOrderedField α] (cfg : SimCfg α) (rng : SimRng α)
    (cosF sinF : α → α) (b : Branch α) (s : ℕ × ℕ) : Branch α × (ℕ × ℕ) :=
  match b with
  | .mk start angle length target_length depth finished children static =>
    if length < target_length then
      let length1 := length + cfg.growth_speed
      let length2 := if target_length < length1 then target_length else length1
      (.mk start angle length2 target_length depth finished children static, s)
    else
      let fcs :=
        if finished = false ∧ depth < cfg.max_depth ∧ cfg.min_branch_length < target_length then
          let endp := (Branch.mk start angle length target_length depth finished children static).get_end cosF sinF
          let num_branches := random_choice [2, 3] (rng.nb s.1)
          let spawned := spawn_children cfg rng endp angle target_length depth num_branches s.2
          ((true, children ++ spawned.1), (s.1 + 1, spawned.2))
        else ((finished, children), s)
      let static1 := if fcs.1.1 = true ∧ fcs.1.2.all (fun c => c.static) then true else static
      (.mk start angle length target_length depth fcs.1.1 fcs.1.2 static1, fcs.2)

theorem Branch.count_le_of_mem {α : Type} {c : Branch α} :
    ∀ {cs : List (Branch α)}, c ∈ cs → Branch.count c ≤ Branch.count_list cs := by
  intro cs hc
  induction cs with
  | nil => cases hc
  | cons a rest ih =>
    rw [Branch.count_list]
    rcases List.mem_cons.mp hc with h | h
    · subst h; omega
    · have := ih h; omega

theorem Branch.measure_lt_of_mem_children {α : Type} (md : ℕ) {c b : Branch α}
    (hc : c ∈ b.children) : Branch.measure md c < Branch.measure md b := by
  cases b with
  | mk s a l t d f ch st =>
    simp only [Branch.children] at hc
    have h1 : Branch.count c ≤ Branch.count_list ch := Branch.count_le_of_mem hc
    have h2 : Branch.count (Branch.mk s a l t d f ch st) = 1 + Branch.count_list ch := by
      rw [Branch.count]
    simp only [Branch.measure, h2]
    have h3 : (md + 1) - min (Branch.depth c) (md + 1) ≤ md + 1 := by omega
    have h4 : Branch.count c * (md + 2) ≤ Branch.count_list ch * (md + 2) :=
      Nat.mul_le_mul_right _ h1
    have h5 : (1 + Branch.count_list ch) * (md + 2) =
        Branch.count_list ch * (md + 2) + (md + 2) := by ring
    omega

theorem Branch.count_of_mem_spawn {α : Type} [LinearOrderedField α] {cfg : SimCfg α}
    {rng : SimRng α} {endp : α × α} {angle target_length : α} {depth : ℕ}
    {c : Branch α} :
    ∀ {n cu : ℕ}, c ∈ (spawn_children cfg rng endp angle target_length depth n cu).1 →
      Branch.count c = 1 ∧ Branch.depth c = depth + 1 := by
  intro n
  induction n with
  | zero => intro cu hc; simp [spawn_children] at hc
  | succ m ih =>
    intro cu hc
    simp only [spawn_children] at hc
    split at hc
    · split at hc
      · rcases List.mem_cons.mp hc with h | h
        · subst h
          exact ⟨by rw [Branch.init, Branch.count, Branch.count_list],
                 by rw [Branch.init, Branch.depth]⟩
        · exact ih h
      · exact ih hc
    · split at hc
      · rcases List.mem_cons.mp hc with h | h
        · subst h
          exact ⟨by rw [Branch.init, Branch.count, Branch.count_list],
                 by rw [Branch.init, Branch.depth]⟩
        · exact ih h
      · exact ih hc

theorem Branch.grow_measure_lt {α : Type} [LinearOrderedField α] {cfg : SimCfg α}
    {rng : SimRng α} {cosF sinF : α → α} {b : Branch α} {s : ℕ × ℕ} {c : Branch α}
    (hc : c ∈ (Branch.grow cfg rng cosF sinF b s).1.children) :
    Branch.measure cfg.max_depth c < Branch.measure cfg.max_depth b := by
  cases b with
  | mk st a l t d f ch sta =>
    rw [Branch.grow] at hc
    split at hc
    · simp only [Branch.children] at hc
      exact Branch.measure_lt_of_mem_children _ (by simpa [Branch.children] using hc)
    · simp only [Branch.children] at hc
      split at hc
      next hcond =>
        simp only at hc
        rcases List.mem_append.mp hc with h | h
        · exact Branch.measure_lt_of_mem_children _ (by simpa [Branch.children] using h)
        · obtain ⟨hcount, hdepth⟩ := Branch.count_of_mem_spawn h
          have hd : d < cfg.max_depth := hcond.2.1
          have h2 : Branch.count (Branch.mk st a l t d f ch sta) = 1 + Branch.count_list ch := by
            rw [Branch.count]
          simp only [Branch.measure, h2, hcount, hdepth, Branch.depth_mk]
          have h5 : (1 + Branch.count_list ch) * (cfg.max_depth + 2) =
              Branch.count_list ch * (cfg.max_depth + 2) + (cfg.max_depth + 2) := by ring
          omega
      next =>
        simp only at hc
        exact Branch.measure_lt_of_mem_children _ (by simpa [Branch.children] using hc)

mutual

/-- Branch.update: no-op when static; otherwise grow this branch when
grow_this_frame is set, then update every child (of the post-grow children
list, so children spawned this frame are updated in the same frame).  The
bound argument b0 of update_list and the hypothesis h carry the termination
argument for the recursion. -/
def Branch.update {α : Type} [LinearOrderedField α] (cfg : SimCfg α) (rng : SimRng α)
    (cosF sinF : α → α) (grow_this_frame : Bool) (b : Branch α) (s : ℕ × ℕ) :
    Branch α × (ℕ × ℕ) :=
  if b.static = true then (b, s)
  else if grow_this_frame then
    let p := b.grow cfg rng cosF sinF s
    let q := Branch.update_list cfg rng cosF sinF grow_this_frame b p.1.children p.2
      (fun _ hc => Branch.grow_measure_lt hc)
    (p.1.with_children q.1, q.2)
  else
    let q := Branch.update_list cfg rng cosF sinF grow_this_frame b b.children s
      (fun _ hc => Branch.measure_lt_of_mem_children _ hc)
    (b.with_children q.1, q.2)
termination_by (Branch.measure cfg.max_depth b, 1, 0)
decreasing_by
  · apply Prod.Lex.right
    apply Prod.Lex.left
    omega
  · apply Prod.Lex.right
    apply Prod.Lex.left
    omega

/-- The loop for child in self.children: child.update(grow_this_frame) of
Branch.update, threading the random streams left to right. -/
def Branch.update_list {α : Type} [LinearOrderedField α] (cfg : SimCfg α) (rng : SimRng α)
    (cosF sinF : α → α) (grow_this_frame : Bool) (b0 : Branch α) (cs : List (Branch α))
    (s : ℕ × ℕ)
    (h : ∀ c ∈ cs, Branch.measure cfg.max_depth c < Branch.measure cfg.max_depth b0) :
    List (Branch α) × (ℕ × ℕ) :=
  match cs with
  | [] => ([], s)
  | c :: rest =>
    let p := Branch.update cfg rng cosF sinF grow_this_frame c s
    let q := Branch.update_list cfg rng cosF sinF grow_this_frame b0 rest p.2
      (fun c' hc' => h c' (List.mem_cons_of_mem _ hc'))
    (p.1 :: q.1, q.2)
termination_by (Branch.measure cfg.max_depth b0, 0, cs.length)
decreasing_by
  · have := h c (List.mem_cons_self c rest)
    apply Prod.Lex.left
    omega
  · apply Prod.Lex.right
    apply Prod.Lex.right
    simp only [List.length_cons]
    omega

end

/-- A sequence of per-frame updates of one branch with the given sequence of
grow_this_frame flags. -/
def Branch.update_seq {α : Type} [LinearOrderedField α] (cfg : SimCfg α) (rng : SimRng α)
    (cosF sinF : α → α) (flags : List Bool) (b : Branch α) (s : ℕ × ℕ) :
    Branch α × (ℕ × ℕ) :=
  flags.foldl (fun p t => Branch.update cfg rng cosF sinF t p.1 p.2) (b, s)

mutual

/-- The state-machine invariant of the spec: a static branch is finished and
all of its children are static, recursively in the whole subtree. -/
def Branch.static_ok {α : Type} : Branch α → Bool
  | .mk _ _ _ _ _ f ch st =>
    (!st || (f && ch.all (fun c => c.static))) && Branch.static_ok_list ch

def Branch.static_ok_list {α : Type} : List (Branch α) → Bool
  | [] => true
  | c :: rest => Branch.static_ok c && Branch.static_ok_list rest

end

mutual

/-- Every branch of the subtree has current length equal to its target
length. -/
def Branch.all_grown {α : Type} [LinearOrderedField α] : Branch α → Bool
  | .mk _ _ l t _ _ ch _ => decide (l = t) && Branch.all_grown_list ch

def Branch.all_grown_list {α : Type} [LinearOrderedField α] : List (Branch α) → Bool
  | [] => true
  | c :: rest => Branch.all_grown c && Branch.all_grown_list rest

end

mutual

/-- grow_branch_instantly: set the length to the target, then (under the same
spawn condition as Branch.grow) mark finished and create the children, each
grown instantly in turn.  The hypothesis argument hd of the loop carries the
guard depth < MAX_DEPTH for termination. -/
def grow_branch_instantly {α : Type} [LinearOrderedField α] (cfg : SimCfg α)
    (rng : SimRng α) (cosF sinF : α → α) (b : Branch α) (s : ℕ × ℕ) :
    Branch α × (ℕ × ℕ) :=
  match b with
  | .mk start angle _length target_length depth finished children static =>
    let b1 := Branch.mk start angle target_length target_length depth finished children static
    if h : finished = false ∧ depth < cfg.max_depth ∧ cfg.min_branch_length < target_length then
      let endp := b1.get_end cosF sinF
      let num_branches := random_choice [2, 3] (rng.nb s.1)
      let r := instant_spawn cfg rng cosF sinF endp angle target_length depth h.2.1
        num_branches (s.1 + 1, s.2)
      (Branch.mk start angle target_length target_length depth true (children ++ r.1) static,
       r.2)
    else (b1, s)
termination_by ((cfg.max_depth + 1) - min b.depth (cfg.max_depth + 1), 0, 0)

/-- The candidate loop of grow_branch_instantly: draw an angle offset (when
depth != 1) and a length factor, create the child when long enough, and
recursively grow it instantly before continuing the loop. -/
def instant_spawn {α : Type} [LinearOrderedField α] (cfg : SimCfg α) (rng : SimRng α)
    (cosF sinF : α → α) (endp : α × α) (angle target_length : α) (depth : ℕ)
    (hd : depth < cfg.max_depth) (n : ℕ) (s : ℕ × ℕ) : List (Branch α) × (ℕ × ℕ) :=
  match n with
  | 0 => ([], s)
  | m + 1 =>
    let dp := if depth = 1 then ((0 : α), s.2)
      else (random_uniform (-cfg.branch_angle) cfg.branch_angle (rng.u s.2), s.2 + 1)
    let new_length := target_length * random_uniform (8/10 : α) cfg.branch_factor (rng.u dp.2)
    let cu2 := dp.2 + 1
    if cfg.min_branch_length ≤ new_length then
      let child := Branch.init endp (angle + dp.1) new_length (depth + 1)
      let g := grow_branch_instantly cfg rng cosF sinF child (s.1, cu2)
      let rest := instant_spawn cfg rng cosF sinF endp angle target_length depth hd m g.2
      (g.1 :: rest.1, rest.2)
    else
      instant_spawn cfg rng cosF sinF endp angle target_length depth hd m (s.1, cu2)
termination_by (cfg.max_depth - depth, 1, n)
decreasing_by
  · simp only [Branch.init, Branch.depth_mk]
    have he : (cfg.max_depth + 1) - min (depth + 1) (cfg.max_depth + 1) =
        cfg.max_depth - depth := by omega
    rw [he]
    apply Prod.Lex.right
    apply Prod.Lex.left
    omega
  · apply Prod.Lex.right
    apply Prod.Lex.right
    omega
  · apply Prod.Lex.right
    apply Prod.Lex.right
    omega

end


mutual

/-- Post-state of an instantly grown subtree: every branch has length =
target_length and is finished precisely when its spawn condition (depth <
max_depth and target_length > min_branch_length) holds. -/
def Branch.instant_done {α : Type} [LinearOrderedField α] (cfg : SimCfg α) :
    Branch α → Bool
  | .mk _ _ l t d f ch _ =>
    decide (l = t) &&
      (f == (decide (d < cfg.max_depth) && decide (cfg.min_branch_length < t))) &&
      Branch.instant_done_list cfg ch

def Branch.instant_done_list {α : Type} [LinearOrderedField α] (cfg : SimCfg α) :
    List (Branch α) → Bool
  | [] => true
  | c :: rest => Branch.instant_done cfg c && Branch.instant_done_list cfg rest

end

/-! ## Claim C9: scale bands of calculate_dynamic_parameters -/

/-- C9: calculate_dynamic_parameters maps node_count to (base_length,
base_spacing) by the first matching closed band in order [0,10] -> (100,60),
[11,30] -> (120,80), [31,60] -> (150,100), [61,inf) -> (180,120), and for a
negative node_count (outside all bands) falls back to the top band's values
(180,120). -/
theorem claim_C9_scale_bands (c : ℤ) :
    (0 ≤ c ∧ c ≤ 10 → calculate_dynamic_parameters c = (100, 60)) ∧
    (11 ≤ c ∧ c ≤ 30 → calculate_dynamic_parameters c = (120, 80)) ∧
    (31 ≤ c ∧ c ≤ 60 → calculate_dynamic_parameters c = (150, 100)) ∧
    (61 ≤ c → calculate_dynamic_parameters c = (180, 120)) ∧
    (c < 0 → calculate_dynamic_parameters c = (180, 120)) := by
  refine ⟨?_, ?_, ?_, ?_, ?_⟩ <;> intro h
  · have hb1 : band_matches (0, some 10) c = true := by
      simp only [band_matches, Bool.and_eq_true, decide_eq_true_eq]; exact h
    unfold calculate_dynamic_parameters scaling_configs
    simp only [List.find?, hb1]
  · have hb1 : band_matches (0, some 10) c = false := by
      rw [Bool.eq_false_iff]
      simp only [ne_eq, band_matches, Bool.and_eq_true, decide_eq_true_eq]; omega
    have hb2 : band_matches (11, some 30) c = true := by
      simp only [band_matches, Bool.and_eq_true, decide_eq_true_eq]; exact h
    unfold calculate_dynamic_parameters scaling_configs
    simp only [List.find?, hb1, hb2]
  · have hb1 : band_matches (0, some 10) c = false := by
      rw [Bool.eq_false_iff]
      simp only [ne_eq, band_matches, Bool.and_eq_true, decide_eq_true_eq]; omega
    have hb2 : band_matches (11, some 30) c = false := by
      rw [Bool.eq_false_iff]
      simp only [ne_eq, band_matches, Bool.and_eq_true, decide_eq_true_eq]; omega
    have hb3 : band_matches (31, some 60) c = true := by
      simp only [band_matches, Bool.and_eq_true, decide_eq_true_eq]; exact h
    unfold calculate_dynamic_parameters scaling_configs
    simp only [List.find?, hb1, hb2, hb3]
  · have hb1 : band_matches (0, some 10) c = false := by
      rw [Bool.eq_false_iff]
      simp only [ne_eq, band_matches, Bool.and_eq_true, decide_eq_true_eq]; omega
    have hb2 : band_matches (11, some 30) c = false := by
      rw [Bool.eq_false_iff]
      simp only [ne_eq, band_matches, Bool.and_eq_true, decide_eq_true_eq]; omega
    have hb3 : band_matches (31, some 60) c = false := by
      rw [Bool.eq_false_iff]
      simp only [ne_eq, band_matches, Bool.and_eq_true, decide_eq_true_eq]; omega
    have hb4 : band_matches (61, none) c = true := by
      simp only [band_matches, Bool.and_true, decide_eq_true_eq]
      omega
    unfold calculate_dynamic_parameters scaling_configs
    simp only [List.find?, hb1, hb2, hb3, hb4]
  · have hb1 : band_matches (0, some 10) c = false := by
      rw [Bool.eq_false_iff]
      simp only [ne_eq, band_matches, Bool.and_eq_true, decide_eq_true_eq]; omega
    have hb2 : band_matches (11, some 30) c = false := by
      rw [Bool.eq_false_iff]
      simp only [ne_eq, band_matches, Bool.and_eq_true, decide_eq_true_eq]; omega
    have hb3 : band_matches (31, some 60) c = false := by
      rw [Bool.eq_false_iff]
      simp only [ne_eq, band_matches, Bool.and_eq_true, decide_eq_true_eq]; omega
    have hb4 : band_matches (61, none) c = false := by
      rw [Bool.eq_false_iff]
      simp only [ne_eq, band_matches, Bool.and_eq_true, decide_eq_true_eq]
      omega
    unfold calculate_dynamic_parameters scaling_configs
    simp only [List.find?, hb1, hb2, hb3, hb4]

/-- Witness for C9 at concrete counts 5, 25, 45, 100 and -3. -/
theorem claim_C9_scale_bands_witness :
    calculate_dynamic_parameters 5 = (100, 60) ∧
    calculate_dynamic_parameters 25 = (120, 80) ∧
    calculate_dynamic_parameters 45 = (150, 100) ∧
    calculate_dynamic_parameters 100 = (180, 120) ∧
    calculate_dynamic_parameters (-3) = (180, 120) :=
  ⟨(claim_C9_scale_bands 5).1 (by omega),
   (claim_C9_scale_bands 25).2.1 (by omega),
   (claim_C9_scale_bands 45).2.2.1 (by omega),
   (claim_C9_scale_bands 100).2.2.2.1 (by omega),
   (claim_C9_scale_bands (-3)).2.2.2.2 (by omega)⟩

/-! ## Claim C4: duplicate edges in build_tree_structure -/

/-- The child list of p is the (order-preserving) list of targets of the
links from p whose endpoints are both known node ids. -/
theorem build_tree_structure_apply (root_node : ℕ) (nodes : List ℕ)
    (links : List (ℕ × ℕ)) (p : ℕ) :
    build_tree_structure root_node nodes links p =
      (links.filter
        (fun l => decide (l.1 ∈ nodes) && decide (l.2 ∈ nodes) && decide (l.1 = p))).map
        (fun l => l.2) := by
  unfold build_tree_structure
  have key : ∀ (ls : List (ℕ × ℕ)) (g : ℕ → List ℕ),
      (ls.foldl
        (fun ts l =>
          if l.1 ∈ nodes ∧ l.2 ∈ nodes then
            fun n => if n = l.1 then ts n ++ [l.2] else ts n
          else ts)
        g) p =
      g p ++ (ls.filter
        (fun l => decide (l.1 ∈ nodes) && decide (l.2 ∈ nodes) && decide (l.1 = p))).map
        (fun l => l.2) := by
    intro ls
    induction ls with
    | nil => intro g; simp
    | cons l rest ih =>
      intro g
      rw [List.foldl_cons, ih, List.filter_cons]
      by_cases h1 : l.1 ∈ nodes ∧ l.2 ∈ nodes
      · by_cases h2 : l.1 = p
        · have hphi : (decide (l.1 ∈ nodes) && decide (l.2 ∈ nodes) && decide (l.1 = p))
              = true := by
            simp only [Bool.and_eq_true, decide_eq_true_eq]
            exact ⟨⟨h1.1, h1.2⟩, h2⟩
          rw [if_pos hphi, List.map_cons]
          simp only [if_pos h1]
          rw [if_pos h2.symm, List.append_assoc, List.singleton_append]
        · have hphi : ¬((decide (l.1 ∈ nodes) && decide (l.2 ∈ nodes) && decide (l.1 = p))
              = true) := by
            simp only [Bool.and_eq_true, decide_eq_true_eq]
            exact fun hcontra => h2 hcontra.2
          rw [if_neg hphi]
          simp only [if_pos h1]
          rw [if_neg (fun hh => h2 hh.symm)]
      · have hphi : ¬((decide (l.1 ∈ nodes) && decide (l.2 ∈ nodes) && decide (l.1 = p))
            = true) := by
          simp only [Bool.and_eq_true, decide_eq_true_eq]
          exact fun hcontra => h1 ⟨hcontra.1.1, hcontra.1.2⟩
        rw [if_neg hphi, if_neg h1]
  rw [key]
  simp

/-- C4 counterexample: with nodes {0, 1} and the duplicated edge (0, 1) given
twice, the child 1 appears twice in the child sequence of 0, not once as the
claim states. -/
theorem claim_C4_counterexample :
    build_tree_structure 0 [0, 1] [(0, 1), (0, 1)] 0 = [1, 1] ∧
    (build_tree_structure 0 [0, 1] [(0, 1), (0, 1)] 0).count 1 = 2 := by decide

/-- C4 amended: build_tree_structure does NOT deduplicate: for known parent
and child ids, the number of occurrences of the child in the parent's child
sequence equals the number of copies of that edge in the link list (a
duplicated edge yields a duplicated entry; the layout still positions the
child only once, since an already-positioned child is skipped). -/
theorem claim_C4_amended (root_node : ℕ) (nodes : List ℕ) (links : List (ℕ × ℕ))
    (p c : ℕ) (hp : p ∈ nodes) (hc : c ∈ nodes) :
    (build_tree_structure root_node nodes links p).count c = links.count (p, c) := by
  rw [build_tree_structure_apply]
  induction links with
  | nil => simp
  | cons l rest ih =>
    rw [List.filter_cons]
    by_cases hphi : (decide (l.1 ∈ nodes) && decide (l.2 ∈ nodes) && decide (l.1 = p))
        = true
    · rw [if_pos hphi, List.map_cons, List.count_cons, List.count_cons, ih]
      simp only [Bool.and_eq_true, decide_eq_true_eq] at hphi
      by_cases hlc : l.2 = c
      · have hpc : (p, c) = l := by
          cases l
          simp only [Prod.mk.injEq]
          exact ⟨hphi.2.symm, hlc.symm⟩
        simp [hlc, hpc]
      · have hpc : (p, c) ≠ l := by
          intro hcontra
          cases hcontra
          exact hlc rfl
        simp [hlc, Ne.symm hpc]
    · rw [if_neg hphi, List.count_cons, ih]
      simp only [Bool.and_eq_true, decide_eq_true_eq] at hphi
      have hpc : (p, c) ≠ l := by
        intro hcontra
        cases hcontra
        exact hphi ⟨⟨hp, hc⟩, rfl⟩
      simp [Ne.symm hpc]

/-- Witness for C4 amended: the duplicated edge occurs twice in the link
list, and correspondingly twice in the child sequence. -/
theorem claim_C4_amended_witness :
    (build_tree_structure 0 [0, 1] [(0, 1), (0, 1)] 0).count 1 =
      [(0, 1), (0, 1)].count (0, 1) :=
  claim_C4_amended 0 [0, 1] [(0, 1), (0, 1)] 0 1 (by decide) (by decide)

/-! ## Claim C2: Branch.get_end geometry -/

/-- C2 counterexample: get_end is computed from the CURRENT length, not the
target length.  A freshly constructed branch (current length 0, target 10,
angle 0) has get_end = start, not start + target_length * (cos, sin). -/
theorem claim_C2_counterexample :
    (Branch.init ((0 : ℝ), 0) 0 10 1).get_end Real.cos Real.sin ≠
      ((Branch.init ((0 : ℝ), 0) 0 10 1).start.1 +
         (Branch.init ((0 : ℝ), 0) 0 10 1).target_length *
           Real.cos (Branch.init ((0 : ℝ), 0) 0 10 1).angle,
       (Branch.init ((0 : ℝ), 0) 0 10 1).start.2 +
         (Branch.init ((0 : ℝ), 0) 0 10 1).target_length *
           Real.sin (Branch.init ((0 : ℝ), 0) 0 10 1).angle) := by
  simp only [Branch.init, Branch.get_end, Branch.start_mk, Branch.angle_mk,
    Branch.length_mk, Branch.target_length_mk, Real.cos_zero, Real.sin_zero,
    Prod.mk.injEq, ne_eq, not_and]
  norm_num

/-- C2 amended: get_end returns start + (current) length * (cos angle,
sin angle); only once the branch is fully grown (length = target_length) does
this coincide with the fully-grown endpoint start + target_length * (cos,
sin) that the claim describes. -/
theorem claim_C2_amended (b : Branch ℝ) :
    b.get_end Real.cos Real.sin =
      (b.start.1 + b.length * Real.cos b.angle,
       b.start.2 + b.length * Real.sin b.angle) ∧
    (b.length = b.target_length →
      b.get_end Real.cos Real.sin =
        (b.start.1 + b.target_length * Real.cos b.angle,
         b.start.2 + b.target_length * Real.sin b.angle)) := by
  refine ⟨rfl, fun h => ?_⟩
  rw [Branch.get_end]
  rw [h]

/-- Witness for C2 amended at a fully grown branch (length = target = 10). -/
theorem claim_C2_amended_witness :
    (Branch.mk ((1 : ℝ), 2) 0 10 10 1 false [] false).get_end Real.cos Real.sin =
      ((1 : ℝ) + 10 * Real.cos 0, (2 : ℝ) + 10 * Real.sin 0) := by
  have h := (claim_C2_amended (Branch.mk ((1 : ℝ), 2) 0 10 10 1 false [] false)).2 rfl
  simpa using h

/-! ## Claim C3: finishing behaviour of a true leaf -/

/-- C3 counterexample: a branch that has reached its target is NOT marked
finished when depth >= MAX_DEPTH (first conjunct, depth 14 = MAX_DEPTH) or
when target_length <= MIN_BRANCH_LENGTH (second conjunct, target 18 = MIN);
it stays unfinished (and non-static) with zero children, contrary to the
claim.  Constants (growth speed 1, min length 18, max depth 14) are the
module constants; the angle parameter is irrelevant to this computation. -/
theorem claim_C3_counterexample :
    ((Branch.grow (⟨1, 0, 17/20, 18, 14⟩ : SimCfg ℚ) ⟨fun _ => 0, fun _ => 0⟩
        (fun _ => 0) (fun _ => 0)
        (Branch.mk ((0 : ℚ), 0) 0 100 100 14 false [] false) (0, 0)).1.finished = false ∧
      (Branch.grow (⟨1, 0, 17/20, 18, 14⟩ : SimCfg ℚ) ⟨fun _ => 0, fun _ => 0⟩
        (fun _ => 0) (fun _ => 0)
        (Branch.mk ((0 : ℚ), 0) 0 100 100 14 false [] false) (0, 0)).1.static = false) ∧
    ((Branch.grow (⟨1, 0, 17/20, 18, 14⟩ : SimCfg ℚ) ⟨fun _ => 0, fun _ => 0⟩
        (fun _ => 0) (fun _ => 0)
        (Branch.mk ((0 : ℚ), 0) 0 18 18 2 false [] false) (0, 0)).1.finished = false ∧
      (Branch.grow (⟨1, 0, 17/20, 18, 14⟩ : SimCfg ℚ) ⟨fun _ => 0, fun _ => 0⟩
        (fun _ => 0) (fun _ => 0)
        (Branch.mk ((0 : ℚ), 0) 0 18 18 2 false [] false) (0, 0)).1.static = false) := by
  decide

/-- C3 amended: a growth tick on an unfinished branch whose length has
reached its target and whose spawn condition fails (target_length <=
min_branch_length, or depth >= max_depth) leaves the branch (and the random
streams) completely unchanged: it is not marked finished, spawns no children,
and never becomes static this way. -/
theorem claim_C3_amended {α : Type} [LinearOrderedField α] (cfg : SimCfg α)
    (rng : SimRng α) (cosF sinF : α → α) (b : Branch α) (s : ℕ × ℕ)
    (hl : ¬ b.length < b.target_length) (hf : b.finished = false)
    (hcond : b.target_length ≤ cfg.min_branch_length ∨ cfg.max_depth ≤ b.depth) :
    Branch.grow cfg rng cosF sinF b s = (b, s) := by
  cases b with
  | mk st a l t d f ch sta =>
    simp only [Branch.length_mk, Branch.target_length_mk, Branch.finished_mk,
      Branch.depth_mk] at hl hf hcond
    subst hf
    have hspawn : ¬(false = false ∧ d < cfg.max_depth ∧ cfg.min_branch_length < t) := by
      intro hcontra
      rcases hcond with h | h
      · exact absurd hcontra.2.2 (not_lt.mpr h)
      · exact absurd hcontra.2.1 (not_lt.mpr h)
    rw [Branch.grow]
    rw [if_neg hl, if_neg hspawn]
    simp

/-- Witness for C3 amended: the depth-14 branch of the counterexample is left
untouched by grow. -/
theorem claim_C3_amended_witness :
    Branch.grow (⟨1, 0, 17/20, 18, 14⟩ : SimCfg ℚ) ⟨fun _ => 0, fun _ => 0⟩
      (fun _ => 0) (fun _ => 0)
      (Branch.mk ((0 : ℚ), 0) 0 100 100 14 false [] false) (0, 0) =
      (Branch.mk ((0 : ℚ), 0) 0 100 100 14 false [] false, (0, 0)) :=
  claim_C3_amended _ _ _ _ _ _ (by decide) rfl (Or.inr (by decide))

/-! ## Claim C10: growth is clamped, never overshooting the target -/

theorem Branch.length_with_children {α : Type} (b : Branch α) (ch : List (Branch α)) :
    (b.with_children ch).length = b.length := by cases b; rfl

theorem Branch.target_length_with_children {α : Type} (b : Branch α)
    (ch : List (Branch α)) : (b.with_children ch).target_length = b.target_length := by
  cases b; rfl

/-- Growing preserves 0 <= length <= target_length (and the target). -/
theorem Branch.grow_length_inv {α : Type} [LinearOrderedField α] (cfg : SimCfg α)
    (rng : SimRng α) (cosF sinF : α → α) (b : Branch α) (s : ℕ × ℕ)
    (hgs : 0 < cfg.growth_speed) (h0 : 0 ≤ b.length)
    (h1 : b.length ≤ b.target_length) :
    0 ≤ (Branch.grow cfg rng cosF sinF b s).1.length ∧
    (Branch.grow cfg rng cosF sinF b s).1.length ≤
      (Branch.grow cfg rng cosF sinF b s).1.target_length := by
  cases b with
  | mk st a l t d f ch sta =>
    simp only [Branch.length_mk, Branch.target_length_mk] at h0 h1
    rw [Branch.grow]
    by_cases hlt : l < t
    · rw [if_pos hlt]
      simp only [Branch.length_mk, Branch.target_length_mk]
      by_cases hcl : t < l + cfg.growth_speed
      · rw [if_pos hcl]
        exact ⟨le_trans h0 h1, le_refl t⟩
      · rw [if_neg hcl]
        exact ⟨by linarith, by linarith⟩
    · rw [if_neg hlt]
      simp only [Branch.length_mk, Branch.target_length_mk]
      exact ⟨h0, h1⟩

/-- A single update preserves 0 <= length <= target_length of the branch
itself. -/
theorem Branch.update_length_inv {α : Type} [LinearOrderedField α] (cfg : SimCfg α)
    (rng : SimRng α) (cosF sinF : α → α) (t : Bool) (b : Branch α) (s : ℕ × ℕ)
    (hgs : 0 < cfg.growth_speed) (h0 : 0 ≤ b.length)
    (h1 : b.length ≤ b.target_length) :
    0 ≤ (Branch.update cfg rng cosF sinF t b s).1.length ∧
    (Branch.update cfg rng cosF sinF t b s).1.length ≤
      (Branch.update cfg rng cosF sinF t b s).1.target_length := by
  rw [Branch.update]
  by_cases hst : b.static = true
  · rw [if_pos hst]
    exact ⟨h0, h1⟩
  · rw [if_neg hst]
    by_cases ht : t = true
    · simp only [if_pos ht, Branch.length_with_children,
        Branch.target_length_with_children]
      exact Branch.grow_length_inv cfg rng cosF sinF b s hgs h0 h1
    · simp only [if_neg ht, Branch.length_with_children,
        Branch.target_length_with_children]
      exact ⟨h0, h1⟩

/-- C10: a branch constructed with a non-negative target length, under a
positive growth speed, keeps 0 <= length <= target_length after any sequence
of update calls with any sequence of grow_this_frame flags. -/
theorem claim_C10_length_clamped {α : Type} [LinearOrderedField α] (cfg : SimCfg α)
    (rng : SimRng α) (cosF sinF : α → α) (flags : List Bool) (p0 : α × α)
    (a tl : α) (d : ℕ) (s : ℕ × ℕ) (hgs : 0 < cfg.growth_speed) (htl : 0 ≤ tl) :
    0 ≤ (Branch.update_seq cfg rng cosF sinF flags (Branch.init p0 a tl d) s).1.length ∧
    (Branch.update_seq cfg rng cosF sinF flags (Branch.init p0 a tl d) s).1.length ≤
      (Branch.update_seq cfg rng cosF sinF flags (Branch.init p0 a tl d) s).1.target_length := by
  have main : ∀ (fl : List Bool) (b : Branch α) (s : ℕ × ℕ),
      0 ≤ b.length → b.length ≤ b.target_length →
      0 ≤ (Branch.update_seq cfg rng cosF sinF fl b s).1.length ∧
      (Branch.update_seq cfg rng cosF sinF fl b s).1.length ≤
        (Branch.update_seq cfg rng cosF sinF fl b s).1.target_length := by
    intro fl
    induction fl with
    | nil => intro b s h0 h1; exact ⟨h0, h1⟩
    | cons t rest ih =>
      intro b s h0 h1
      have step := Branch.update_length_inv cfg rng cosF sinF t b s hgs h0 h1
      have e : Branch.update_seq cfg rng cosF sinF (t :: rest) b s =
          Branch.update_seq cfg rng cosF sinF rest
            (Branch.update cfg rng cosF sinF t b s).1
            (Branch.update cfg rng cosF sinF t b s).2 := by
        rw [Branch.update_seq, Branch.update_seq, List.foldl_cons]
      rw [e]
      exact ih _ _ step.1 step.2
  exact main flags (Branch.init p0 a tl d) s (by rw [Branch.init, Branch.length_mk])
    (by rw [Branch.init, Branch.length_mk, Branch.target_length_mk]; exact htl)

/-- Witness for C10: two growth ticks on a fresh branch with target 5. -/
theorem claim_C10_length_clamped_witness :
    0 ≤ (Branch.update_seq (⟨1, 0, 17/20, 18, 14⟩ : SimCfg ℚ) ⟨fun _ => 0, fun _ => 0⟩
        (fun _ => 0) (fun _ => 0) [true, true]
        (Branch.init ((0 : ℚ), 0) 0 5 1) (0, 0)).1.length ∧
    (Branch.update_seq (⟨1, 0, 17/20, 18, 14⟩ : SimCfg ℚ) ⟨fun _ => 0, fun _ => 0⟩
        (fun _ => 0) (fun _ => 0) [true, true]
        (Branch.init ((0 : ℚ), 0) 0 5 1) (0, 0)).1.length ≤
      (Branch.update_seq (⟨1, 0, 17/20, 18, 14⟩ : SimCfg ℚ) ⟨fun _ => 0, fun _ => 0⟩
        (fun _ => 0) (fun _ => 0) [true, true]
        (Branch.init ((0 : ℚ), 0) 0 5 1) (0, 0)).1.target_length :=
  claim_C10_length_clamped _ _ _ _ [true, true] _ _ _ _ _ (by decide) (by decide)

/-- C7 amended: grow_branch_instantly terminates (it is a total function
here, by recursion on max_depth - depth) and, started on a fresh branch (no
children, not yet finished), leaves every visited or created branch with
length = target_length; such a branch ends finished exactly when its spawn
condition (depth < max_depth and target_length > min_branch_length) holds —
a corner branch at depth >= max_depth or with target <= min stays
unfinished. -/
theorem claim_C7_amended {α : Type} [LinearOrderedField α] (cfg : SimCfg α)
    (rng : SimRng α) (cosF sinF : α → α) (b : Branch α) (s : ℕ × ℕ) :
    b.children = [] → b.finished = false →
    ((grow_branch_instantly cfg rng cosF sinF b s).1.instant_done cfg = true) := by
  refine grow_branch_instantly.induct cfg rng cosF sinF
    (fun b s => b.children = [] → b.finished = false →
      (grow_branch_instantly cfg rng cosF sinF b s).1.instant_done cfg = true)
    (fun endp angle tl depth hd n s =>
      Branch.instant_done_list cfg
        (instant_spawn cfg rng cosF sinF endp angle tl depth hd n s).1 = true)
    ?_ ?_ ?_ ?_ ?_ b s
  · intro s0 startp angle length tl depth finished children static
    dsimp only
    intro h ih hch hf
    rw [grow_branch_instantly, dif_pos h]
    rw [Branch.instant_done]
    simp only [Branch.children_mk] at hch
    subst hch
    rw [List.nil_append]
    simp [h.2.1, h.2.2, ih]
  · intro s0 startp angle length tl depth finished children static hcond
    intro hch hf
    simp only [Branch.children_mk] at hch
    simp only [Branch.finished_mk] at hf
    subst hch
    subst hf
    rw [grow_branch_instantly, dif_neg hcond]
    rw [Branch.instant_done]
    have hnab : ¬(depth < cfg.max_depth ∧ cfg.min_branch_length < tl) := by
      intro hc
      exact hcond ⟨rfl, hc.1, hc.2⟩
    rcases not_and_or.mp hnab with hna | hnb
    · rw [decide_eq_false hna]
      simp [Branch.instant_done_list]
    · rw [decide_eq_false hnb]
      simp [Branch.instant_done_list]
  · intro endp angle tl depth hd s0
    rw [instant_spawn]
    rw [Branch.instant_done_list]
  · intro endp angle tl depth hd s0 m
    dsimp only
    intro hkeep ih1 ih1b ih2
    rw [instant_spawn]
    dsimp only
    simp only [dite_eq_ite] at hkeep ih1 ih2 ⊢
    rw [if_pos hkeep]
    rw [Branch.instant_done_list]
    rw [Bool.and_eq_true]
    exact ⟨ih1 rfl rfl, ih2⟩
  · intro endp angle tl depth hd s0 m
    dsimp only
    intro hdrop ih2
    rw [instant_spawn]
    dsimp only
    simp only [dite_eq_ite] at hdrop ih2 ⊢
    rw [if_neg hdrop]
    exact ih2

/-- C7 counterexample: grow_branch_instantly on a branch at depth =
MAX_DEPTH (14) sets its length to the target but leaves the finished flag
false: not every visited branch ends in the finished, static-eligible
state. -/
theorem claim_C7_counterexample :
    (grow_branch_instantly (⟨1, 0, 17/20, 18, 14⟩ : SimCfg ℚ) ⟨fun _ => 0, fun _ => 0⟩
        (fun _ => 0) (fun _ => 0)
        (Branch.mk ((0 : ℚ), 0) 0 0 100 14 false [] false) (0, 0)).1.length = 100 ∧
    (grow_branch_instantly (⟨1, 0, 17/20, 18, 14⟩ : SimCfg ℚ) ⟨fun _ => 0, fun _ => 0⟩
        (fun _ => 0) (fun _ => 0)
        (Branch.mk ((0 : ℚ), 0) 0 0 100 14 false [] false) (0, 0)).1.finished = false := by
  constructor <;>
    (rw [grow_branch_instantly, dif_neg (by decide :
      ¬(false = false ∧ 14 < (⟨1, 0, 17/20, 18, 14⟩ : SimCfg ℚ).max_depth ∧
        (⟨1, 0, 17/20, 18, 14⟩ : SimCfg ℚ).min_branch_length < (100 : ℚ)))]; rfl)

/-- Witness for C7 amended at a fresh depth-14 branch (no spawn, everything
evaluates). -/
theorem claim_C7_amended_witness :
    ((grow_branch_instantly (⟨1, 0, 17/20, 18, 14⟩ : SimCfg ℚ) ⟨fun _ => 0, fun _ => 0⟩
        (fun _ => 0) (fun _ => 0)
        (Branch.mk ((0 : ℚ), 0) 0 0 100 14 false [] false) (0, 0)).1.instant_done
      (⟨1, 0, 17/20, 18, 14⟩ : SimCfg ℚ)) = true :=
  claim_C7_amended _ _ _ _ _ _ rfl rfl

/-! ## Claim C8: static is a terminal, invariant-respecting state -/

theorem Branch.static_with_children {α : Type} (b : Branch α) (ch : List (Branch α)) :
    (b.with_children ch).static = b.static := by cases b; rfl

theorem Branch.finished_with_children {α : Type} (b : Branch α) (ch : List (Branch α)) :
    (b.with_children ch).finished = b.finished := by cases b; rfl

theorem Branch.children_with_children {α : Type} (b : Branch α) (ch : List (Branch α)) :
    (b.with_children ch).children = ch := by cases b; rfl

/-- Projection form of the static-state invariant. -/
theorem Branch.static_ok_eq {α : Type} (b : Branch α) :
    b.static_ok = ((!b.static || (b.finished && b.children.all (fun c => c.static))) &&
      Branch.static_ok_list b.children) := by cases b; rfl

/-- update is a no-op on a static branch ('if not self.static'). -/
theorem Branch.static_update_eq {α : Type} [LinearOrderedField α] (cfg : SimCfg α)
    (rng : SimRng α) (cosF sinF : α → α) (t : Bool) (b : Branch α) (s : ℕ × ℕ)
    (h : b.static = true) : Branch.update cfg rng cosF sinF t b s = (b, s) := by
  rw [Branch.update, if_pos h]

/-- The child-update loop is the identity on a list of static children. -/
theorem Branch.update_list_static_id {α : Type} [LinearOrderedField α] (cfg : SimCfg α)
    (rng : SimRng α) (cosF sinF : α → α) (t : Bool) (b0 : Branch α) :
    ∀ (cs : List (Branch α)) (s : ℕ × ℕ)
      (h : ∀ c ∈ cs, Branch.measure cfg.max_depth c < Branch.measure cfg.max_depth b0),
      (∀ c ∈ cs, c.static = true) →
      Branch.update_list cfg rng cosF sinF t b0 cs s h = (cs, s) := by
  intro cs
  induction cs with
  | nil => intro s h hall; rw [Branch.update_list]
  | cons c rest ih =>
    intro s h hall
    rw [Branch.update_list]
    rw [Branch.static_update_eq cfg rng cosF sinF t c s (hall c (List.mem_cons_self c rest))]
    rw [ih s (fun c' hc' => h c' (List.mem_cons_of_mem _ hc'))
      (fun c' hc' => hall c' (List.mem_cons_of_mem _ hc'))]

theorem Branch.static_ok_list_append {α : Type} (l1 l2 : List (Branch α)) :
    Branch.static_ok_list (l1 ++ l2) =
      (Branch.static_ok_list l1 && Branch.static_ok_list l2) := by
  induction l1 with
  | nil => rw [List.nil_append, Branch.static_ok_list, Bool.true_and]
  | cons c rest ih =>
    rw [List.cons_append, Branch.static_ok_list, Branch.static_ok_list, ih, Bool.and_assoc]

theorem Branch.static_ok_list_of_forall {α : Type} {cs : List (Branch α)}
    (h : ∀ c ∈ cs, Branch.static_ok c = true) : Branch.static_ok_list cs = true := by
  induction cs with
  | nil => rw [Branch.static_ok_list]
  | cons c rest ih =>
    rw [Branch.static_ok_list, Bool.and_eq_true]
    exact ⟨h c (List.mem_cons_self c rest),
      ih (fun c' hc' => h c' (List.mem_cons_of_mem _ hc'))⟩

/-- Freshly spawned children of Branch.grow are clean leaves. -/
theorem Branch.spawn_mem_clean {α : Type} [LinearOrderedField α] {cfg : SimCfg α}
    {rng : SimRng α} {endp : α × α} {angle target_length : α} {depth : ℕ}
    {c : Branch α} :
    ∀ {n cu : ℕ}, c ∈ (spawn_children cfg rng endp angle target_length depth n cu).1 →
      c.static = false ∧ c.finished = false ∧ c.children = [] := by
  intro n
  induction n with
  | zero => intro cu hc; simp [spawn_children] at hc
  | succ m ih =>
    intro cu hc
    simp only [spawn_children] at hc
    split at hc
    · split at hc
      · rcases List.mem_cons.mp hc with h | h
        · subst h
          exact ⟨rfl, rfl, rfl⟩
        · exact ih h
      · exact ih hc
    · split at hc
      · rcases List.mem_cons.mp hc with h | h
        · subst h
          exact ⟨rfl, rfl, rfl⟩
        · exact ih h
      · exact ih hc

theorem Branch.static_ok_of_clean {α : Type} {c : Branch α} (hst : c.static = false)
    (hch : c.children = []) : c.static_ok = true := by
  cases c with
  | mk p a l t d f ch sta =>
    simp only [Branch.static_mk] at hst
    simp only [Branch.children_mk] at hch
    subst hst
    subst hch
    rw [Branch.static_ok, Branch.static_ok_list]
    rfl

/-- Branch.grow preserves the static-state invariant. -/
theorem Branch.grow_static_ok {α : Type} [LinearOrderedField α] (cfg : SimCfg α)
    (rng : SimRng α) (cosF sinF : α → α) (b : Branch α) (s : ℕ × ℕ)
    (hok : b.static_ok = true) :
    (Branch.grow cfg rng cosF sinF b s).1.static_ok = true := by
  cases b with
  | mk p a l t d f ch sta =>
    rw [Branch.static_ok, Bool.and_eq_true] at hok
    obtain ⟨hhead, hlist⟩ := hok
    rw [Branch.grow]
    by_cases hlt : l < t
    · rw [if_pos hlt]
      rw [Branch.static_ok, Bool.and_eq_true]
      exact ⟨hhead, hlist⟩
    · rw [if_neg hlt]
      by_cases hcond : f = false ∧ d < cfg.max_depth ∧ cfg.min_branch_length < t
      · rw [if_pos hcond]
        dsimp only
        have hsta : sta = false := by
          rcases Bool.or_eq_true_iff.mp hhead with hh | hh
          · cases sta
            · rfl
            · simp at hh
          · rw [hcond.1] at hh
            simp at hh
        subst hsta
        have hspawnok : Branch.static_ok_list
            (spawn_children cfg rng
              (Branch.get_end cosF sinF (Branch.mk p a l t d f ch false)) a t d
              (random_choice [2, 3] (rng.nb s.1)) s.2).1 = true := by
          apply Branch.static_ok_list_of_forall
          intro c hc
          obtain ⟨h1, _, h3⟩ := Branch.spawn_mem_clean hc
          exact Branch.static_ok_of_clean h1 h3
        by_cases hall : (true = true ∧
            (ch ++ (spawn_children cfg rng
              (Branch.get_end cosF sinF (Branch.mk p a l t d f ch false)) a t d
              (random_choice [2, 3] (rng.nb s.1)) s.2).1).all (fun c => c.static) = true)
        · rw [if_pos hall]
          rw [Branch.static_ok, Bool.and_eq_true]
          constructor
          · rw [Bool.or_eq_true_iff]
            right
            rw [Bool.and_eq_true]
            exact ⟨rfl, hall.2⟩
          · rw [Branch.static_ok_list_append, Bool.and_eq_true]
            exact ⟨hlist, hspawnok⟩
        · rw [if_neg hall]
          rw [Branch.static_ok, Bool.and_eq_true]
          constructor
          · rfl
          · rw [Branch.static_ok_list_append, Bool.and_eq_true]
            exact ⟨hlist, hspawnok⟩
      · rw [if_neg hcond]
        dsimp only
        by_cases hall : (f = true ∧ ch.all (fun c => c.static) = true)
        · rw [if_pos hall]
          rw [Branch.static_ok, Bool.and_eq_true]
          constructor
          · rw [Bool.or_eq_true_iff]
            right
            rw [Bool.and_eq_true]
            exact ⟨hall.1, hall.2⟩
          · exact hlist
        · rw [if_neg hall]
          rw [Branch.static_ok, Bool.and_eq_true]
          exact ⟨hhead, hlist⟩

/-- Branch.update preserves the static-state invariant. -/
theorem Branch.update_static_ok {α : Type} [LinearOrderedField α] (cfg : SimCfg α)
    (rng : SimRng α) (cosF sinF : α → α) (t : Bool) (b : Branch α) (s : ℕ × ℕ)
    (hok : b.static_ok = true) :
    (Branch.update cfg rng cosF sinF t b s).1.static_ok = true := by
  revert hok
  refine Branch.update.induct cfg rng cosF sinF t
    (fun b s => b.static_ok = true →
      (Branch.update cfg rng cosF sinF t b s).1.static_ok = true)
    (fun b0 cs s h => Branch.static_ok_list cs = true →
      Branch.static_ok_list (Branch.update_list cfg rng cosF sinF t b0 cs s h).1 = true)
    ?_ ?_ ?_ ?_ ?_ b s
  · intro b s hst hok
    rw [Branch.static_update_eq cfg rng cosF sinF t b s hst]
    exact hok
  · intro b s hst ht
    dsimp only
    intro ih hok
    rw [Branch.update, if_neg hst, if_pos ht]
    dsimp only
    have hgok := Branch.grow_static_ok cfg rng cosF sinF b s hok
    rw [Branch.static_ok_eq, Bool.and_eq_true] at hgok
    obtain ⟨hhead1, hlist1⟩ := hgok
    rw [Branch.static_ok_eq, Bool.and_eq_true]
    simp only [Branch.static_with_children, Branch.finished_with_children,
      Branch.children_with_children]
    constructor
    · cases hst1 : (Branch.grow cfg rng cosF sinF b s).1.static with
      | false =>
        rw [Bool.not_false, Bool.true_or]
      | true =>
        rw [hst1] at hhead1
        rw [Bool.not_true, Bool.false_or] at hhead1
        rw [Bool.and_eq_true] at hhead1
        have hallst : ∀ c ∈ (Branch.grow cfg rng cosF sinF b s).1.children,
            c.static = true := fun c hc => List.all_eq_true.mp hhead1.2 c hc
        rw [Branch.update_list_static_id cfg rng cosF sinF t b
          ((Branch.grow cfg rng cosF sinF b s).1.children)
          ((Branch.grow cfg rng cosF sinF b s).2) _ hallst]
        rw [Bool.not_true, Bool.false_or, Bool.and_eq_true]
        exact hhead1
    · exact ih hlist1
  · intro b s hst ht
    dsimp only
    intro ih hok
    rw [Branch.update, if_neg hst, if_neg ht]
    dsimp only
    rw [Branch.static_ok_eq, Bool.and_eq_true] at hok
    obtain ⟨hhead1, hlist1⟩ := hok
    rw [Branch.static_ok_eq, Bool.and_eq_true]
    simp only [Branch.static_with_children, Branch.finished_with_children,
      Branch.children_with_children]
    constructor
    · cases hst1 : b.static with
      | false =>
        rw [Bool.not_false, Bool.true_or]
      | true =>
        rw [hst1] at hhead1
        rw [Bool.not_true, Bool.false_or] at hhead1
        rw [Bool.and_eq_true] at hhead1
        have hallst : ∀ c ∈ b.children, c.static = true := fun c hc =>
          List.all_eq_true.mp hhead1.2 c hc
        rw [Branch.update_list_static_id cfg rng cosF sinF t b b.children s _ hallst]
        rw [Bool.not_true, Bool.false_or, Bool.and_eq_true]
        exact hhead1
    · exact ih hlist1
  · intro b0 s h hh hok
    rw [Branch.update_list]
    exact hok
  · intro b0 s c rest h
    dsimp only
    intro hh ih1 ih2 hok
    rw [Branch.update_list]
    dsimp only
    rw [Branch.static_ok_list] at hok
    rw [Bool.and_eq_true] at hok
    rw [Branch.static_ok_list, Bool.and_eq_true]
    exact ⟨ih1 hok.1, ih2 hok.2⟩

/-- C8: under the state invariant (established at construction and preserved
by update), a static branch is finished with every child static; and static
is terminal: an update call with any tick flag (or any sequence of them)
returns the branch and the random-stream state completely unchanged — its
whole subtree is untouched and the flag never reverts. -/
theorem claim_C8_static_terminal {α : Type} [LinearOrderedField α] (cfg : SimCfg α)
    (rng : SimRng α) (cosF sinF : α → α) (b : Branch α)
    (hok : b.static_ok = true) :
    (b.static = true → b.finished = true ∧ ∀ c ∈ b.children, c.static = true) ∧
    (∀ (t : Bool) (s : ℕ × ℕ), b.static = true →
      Branch.update cfg rng cosF sinF t b s = (b, s)) ∧
    (∀ (flags : List Bool) (s : ℕ × ℕ), b.static = true →
      Branch.update_seq cfg rng cosF sinF flags b s = (b, s)) ∧
    (∀ (t : Bool) (s : ℕ × ℕ),
      (Branch.update cfg rng cosF sinF t b s).1.static_ok = true) ∧
    (∀ (p0 : α × α) (a l : α) (d : ℕ), (Branch.init p0 a l d).static_ok = true) := by
  refine ⟨?_, ?_, ?_, ?_, ?_⟩
  · intro hst
    rw [Branch.static_ok_eq, Bool.and_eq_true] at hok
    obtain ⟨hhead, _⟩ := hok
    rw [hst, Bool.not_true, Bool.false_or, Bool.and_eq_true] at hhead
    exact ⟨hhead.1, fun c hc => List.all_eq_true.mp hhead.2 c hc⟩
  · intro t s hst
    exact Branch.static_update_eq cfg rng cosF sinF t b s hst
  · intro flags s hst
    induction flags generalizing s with
    | nil => rfl
    | cons t rest ih =>
      rw [Branch.update_seq, List.foldl_cons]
      dsimp only
      rw [Branch.static_update_eq cfg rng cosF sinF t b s hst, ← Branch.update_seq]
      exact ih s
  · intro t s
    exact Branch.update_static_ok cfg rng cosF sinF t b s hok
  · intro p0 a l d
    rfl

/-- Witness for C8 at a concrete fully static leaf branch. -/
theorem claim_C8_static_terminal_witness :
    (Branch.mk ((0 : ℚ), 0) 0 5 5 1 true [] true).finished = true ∧
    Branch.update (⟨1, 0, 17/20, 18, 14⟩ : SimCfg ℚ) ⟨fun _ => 0, fun _ => 0⟩
      (fun _ => 0) (fun _ => 0) true
      (Branch.mk ((0 : ℚ), 0) 0 5 5 1 true [] true) (0, 0) =
      (Branch.mk ((0 : ℚ), 0) 0 5 5 1 true [] true, (0, 0)) :=
  ⟨((claim_C8_static_terminal (⟨1, 0, 17/20, 18, 14⟩ : SimCfg ℚ)
      ⟨fun _ => 0, fun _ => 0⟩ (fun _ => 0) (fun _ => 0)
      (Branch.mk ((0 : ℚ), 0) 0 5 5 1 true [] true) (by decide)).1 rfl).1,
   (claim_C8_static_terminal (⟨1, 0, 17/20, 18, 14⟩ : SimCfg ℚ)
      ⟨fun _ => 0, fun _ => 0⟩ (fun _ => 0) (fun _ => 0)
      (Branch.mk ((0 : ℚ), 0) 0 5 5 1 true [] true) (by decide)).2.1 true (0, 0) rfl⟩

/-! ## Claim C5: root selection -/

/-- C5 counterexample: with nodes inserted in order [1, 0] and no links, both
nodes are roots; CPython enumerates the set difference in hash order (for
small ints, increasing value order — here the reverse of insertion order), so
list(all_node_ids - linked_to)[0] is 0, not the first node 1 by input order.
The enumeration used (reverse) is a permutation, i.e. a legitimate set
order. -/
theorem claim_C5_counterexample :
    (List.reverse [1, 0]).Perm [1, 0] ∧
    (find_root_nodes [1, 0] [] List.reverse).headI = 0 ∧ (0 : ℕ) ≠ 1 := by
  refine ⟨by decide, ?_, by decide⟩
  rfl

/-- C5 amended: when the root set is empty the fallback root is the
first-inserted node (deterministic), as claimed; when it is non-empty the
chosen root is SOME member of the root set — the element the runtime set
enumeration yields first, which need not be the first by input node order. -/
theorem claim_C5_amended (nodes : List ℕ) (links : List (ℕ × ℕ))
    (setOrd : List ℕ → List ℕ) (hperm : ∀ l, (setOrd l).Perm l) :
    ((nodes.filter (fun n => n ∉ links.map (fun l => l.2))).isEmpty = true →
      find_root_nodes nodes links setOrd = [nodes.headI]) ∧
    ((nodes.filter (fun n => n ∉ links.map (fun l => l.2))).isEmpty = false →
      (find_root_nodes nodes links setOrd).headI ∈
        nodes.filter (fun n => n ∉ links.map (fun l => l.2))) := by
  constructor
  · intro hemp
    rw [find_root_nodes]
    rw [List.isEmpty_iff] at hemp
    rw [hemp]
    have h0 : setOrd [] = [] := List.Perm.eq_nil (hperm [])
    rw [h0]
    rfl
  · intro hne
    rw [find_root_nodes]
    rw [List.isEmpty_eq_false] at hne
    have hsne : setOrd (nodes.filter (fun n => n ∉ links.map (fun l => l.2))) ≠ [] := by
      intro hcontra
      have hp := hperm (nodes.filter (fun n => n ∉ links.map (fun l => l.2)))
      rw [hcontra] at hp
      exact hne (List.Perm.eq_nil hp.symm)
    rw [if_neg (fun hcontra => hsne (List.isEmpty_iff.mp hcontra))]
    have hmem : ∀ (l : List ℕ), l ≠ [] → l.headI ∈ l := by
      intro l hl
      cases l with
      | nil => exact absurd rfl hl
      | cons a t => exact List.mem_cons_self a t
    exact (hperm _).subset (hmem _ hsne)

/-- Witness for C5 amended: a 2-cycle (empty root set, fallback = first
inserted node 5), and a 2-root instance where the chosen root is a member of
the root set. -/
theorem claim_C5_amended_witness :
    find_root_nodes [5, 7] [(5, 7), (7, 5)] (fun l => l) = [5] ∧
    (find_root_nodes [1, 0] [] List.reverse).headI ∈
      [1, 0].filter (fun n => n ∉ ([] : List (ℕ × ℕ)).map (fun l => l.2)) :=
  ⟨(claim_C5_amended [5, 7] [(5, 7), (7, 5)] (fun l => l)
      (fun l => List.Perm.refl l)).1 (by decide),
   (claim_C5_amended [1, 0] [] List.reverse
      (fun l => List.reverse_perm l)).2 (by decide)⟩

/-! ## Claim C6: angular distribution among siblings -/

/-- The recursion only appends position entries: entries present in the state
remain in the final state. -/
theorem place_nodes_pos_mono {α : Type} [LinearOrderedField α] (cfg : LayoutCfg α)
    (cosF sinF : α → α) (rng : ℕ → α) (ts : ℕ → List ℕ) (node_id : ℕ)
    (sx sy a L : α) (d : ℕ) (st : PlaceState α) (x : ℕ × (α × α)) (hx : x ∈ st.pos) :
    x ∈ (place_nodes_recursively cfg cosF sinF rng ts node_id sx sy a L d st).pos := by
  revert hx
  refine place_nodes_recursively.induct cfg cosF sinF rng ts
    (fun node_id sx sy a L d st => ∀ x, x ∈ st.pos →
      x ∈ (place_nodes_recursively cfg cosF sinF rng ts node_id sx sy a L d st).pos)
    (fun sx sy a L cd nb i cs st => ∀ x, x ∈ st.pos →
      x ∈ (place_children cfg cosF sinF rng ts sx sy a L cd nb i cs st).pos)
    ?_ ?_ ?_ ?_ ?_ ?_ node_id sx sy a L d st x
  · intro n sx sy a L d st hguard x hx
    rw [place_nodes_recursively, if_pos hguard]
    exact hx
  · intro n sx sy a L d st hguard
    dsimp only
    intro hemp x hx
    rw [place_nodes_recursively, if_neg hguard]
    dsimp only
    rw [if_pos hemp]
    exact hx
  · intro n sx sy a L d st hguard
    dsimp only
    intro hemp ih x hx
    rw [place_nodes_recursively, if_neg hguard]
    dsimp only
    rw [if_neg hemp]
    exact ih x hx
  · intro sx sy a L cd nb i st x hx
    rw [place_children]
    exact hx
  · intro sx sy a L cd nb i st cid rest hmem ih x hx
    rw [place_children, if_pos hmem]
    exact ih x hx
  · intro sx sy a L cd nb i st cid rest hmem
    dsimp only
    intro ih1 ih1b ih2 x hx
    rw [place_children, if_neg hmem]
    dsimp only
    apply ih2
    apply ih1
    dsimp only
    exact List.mem_append_left _ hx

/-- List-level version of place_nodes_pos_mono for the child loop. -/
theorem place_children_pos_mono {α : Type} [LinearOrderedField α] (cfg : LayoutCfg α)
    (cosF sinF : α → α) (rng : ℕ → α) (ts : ℕ → List ℕ) (sx sy a L : α)
    (cd nb : ℕ) :
    ∀ (cs : List ℕ) (i : ℕ) (st : PlaceState α) (x : ℕ × (α × α)), x ∈ st.pos →
      x ∈ (place_children cfg cosF sinF rng ts sx sy a L cd nb i cs st).pos := by
  intro cs
  induction cs with
  | nil =>
    intro i st x hx
    rw [place_children]
    exact hx
  | cons cid rest ih =>
    intro i st x hx
    rw [place_children]
    by_cases hmem : cid ∈ st.positioned
    · rw [if_pos hmem]
      exact ih _ _ _ hx
    · rw [if_neg hmem]
      dsimp only
      apply ih
      apply place_nodes_pos_mono
      dsimp only
      exact List.mem_append_left _ hx

/-- C6: for k > 1 children the i-th angular offset is
(i/(k-1)) * (2 * branch_angle) - branch_angle, the offsets are symmetric
about 0 (so the child angles are symmetric about the parent angle) and span
exactly 2 * branch_angle; for a single child the offset is 0 and the child is
recorded at the parent position plus length * (cos angle, sin angle), i.e.
along the parent angle at distance length. -/
theorem claim_C6_sibling_angles (ba a L : ℝ) (k i : ℕ) :
    (2 ≤ k → i < k →
      branch_delta ba k i = ((i : ℝ) / ((k : ℝ) - 1)) * (2 * ba) - ba ∧
      branch_delta ba k (k - 1 - i) = -branch_delta ba k i) ∧
    (2 ≤ k → branch_delta ba k (k - 1) - branch_delta ba k 0 = 2 * ba) ∧
    branch_delta ba 1 i = 0 ∧
    (∀ (cfg : LayoutCfg ℝ) (rng : ℕ → ℝ) (ts : ℕ → List ℕ) (sx sy : ℝ) (d : ℕ)
       (st : PlaceState ℝ) (c : ℕ), c ∉ st.positioned →
       (c, (sx + L * Real.cos a, sy + L * Real.sin a)) ∈
         (place_children cfg Real.cos Real.sin rng ts sx sy a L d 1 0 [c] st).pos) ∧
    (0 ≤ L → Real.sqrt ((L * Real.cos a) ^ 2 + (L * Real.sin a) ^ 2) = L) := by
  have hdelta1 : ∀ (b : ℝ) (j : ℕ), branch_delta b 1 j = 0 := by
    intro b j
    rw [branch_delta, if_pos rfl]
  refine ⟨?_, ?_, hdelta1 ba i, ?_, ?_⟩
  · intro hk hi
    have hne1 : k ≠ 1 := by omega
    have hkR : ((k : ℝ) - 1) ≠ 0 := by
      have : (2 : ℝ) ≤ (k : ℝ) := by exact_mod_cast hk
      intro hcontra
      nlinarith
    constructor
    · rw [branch_delta, if_neg hne1]
      ring
    · rw [branch_delta, if_neg hne1, branch_delta, if_neg hne1]
      have hcast : ((k - 1 - i : ℕ) : ℝ) = (k : ℝ) - 1 - (i : ℝ) := by
        have h1 : i ≤ k - 1 := by omega
        have h2 : 1 ≤ k := by omega
        push_cast [Nat.cast_sub h1, Nat.cast_sub h2]
        ring
      rw [hcast]
      field_simp
      ring
  · intro hk
    have hne1 : k ≠ 1 := by omega
    have hkR : ((k : ℝ) - 1) ≠ 0 := by
      have : (2 : ℝ) ≤ (k : ℝ) := by exact_mod_cast hk
      intro hcontra
      nlinarith
    have hcast : ((k - 1 : ℕ) : ℝ) = (k : ℝ) - 1 := by
      have h2 : 1 ≤ k := by omega
      push_cast [Nat.cast_sub h2]
      ring
    rw [branch_delta, if_neg hne1, branch_delta, if_neg hne1, hcast]
    rw [Nat.cast_zero]
    field_simp
    ring
  · intro cfg rng ts sx sy d st c hc
    rw [place_children, if_neg hc]
    dsimp only
    rw [place_children]
    have hentry : (c, (sx + L * Real.cos a, sy + L * Real.sin a)) ∈
        st.pos ++ [(c, (sx + L * Real.cos (a + branch_delta cfg.branch_angle 1 0),
          sy + L * Real.sin (a + branch_delta cfg.branch_angle 1 0)))] := by
      rw [hdelta1 cfg.branch_angle 0, add_zero]
      exact List.mem_append_right _ (List.mem_singleton.mpr rfl)
    exact place_nodes_pos_mono cfg Real.cos Real.sin rng ts c _ _ _ _ d _ _ hentry
  · intro hL
    have hsum : (L * Real.cos a) ^ 2 + (L * Real.sin a) ^ 2 = L ^ 2 := by
      have hpyth := Real.sin_sq_add_cos_sq a
      nlinarith
    rw [hsum]
    exact Real.sqrt_sq hL

/-- Witness for C6 at branch_angle 1, parent angle 0, length 1, k = 3
children (child 1), and a singleton child list placed from the origin. -/
theorem claim_C6_sibling_angles_witness :
    (branch_delta (1 : ℝ) 3 1 = (((1 : ℕ) : ℝ) / (((3 : ℕ) : ℝ) - 1)) * (2 * 1) - 1 ∧
      branch_delta (1 : ℝ) 3 (3 - 1 - 1) = -branch_delta (1 : ℝ) 3 1) ∧
    (branch_delta (1 : ℝ) 3 (3 - 1) - branch_delta (1 : ℝ) 3 0 = 2 * 1) ∧
    branch_delta (1 : ℝ) 1 1 = 0 ∧
    ((7 : ℕ), ((0 : ℝ) + 1 * Real.cos 0, (0 : ℝ) + 1 * Real.sin 0)) ∈
      (place_children (⟨1, 1, 0, 3⟩ : LayoutCfg ℝ) Real.cos Real.sin (fun _ => 1)
        (fun _ => []) 0 0 0 1 2 1 0 [7] ⟨∅, [], 0⟩).pos ∧
    Real.sqrt ((1 * Real.cos 0) ^ 2 + (1 * Real.sin 0) ^ 2) = 1 :=
  ⟨(claim_C6_sibling_angles 1 0 1 3 1).1 (by norm_num) (by norm_num),
   (claim_C6_sibling_angles 1 0 1 3 1).2.1 (by norm_num),
   (claim_C6_sibling_angles 1 0 1 3 1).2.2.1,
   (claim_C6_sibling_angles 1 0 1 3 1).2.2.2.1 (⟨1, 1, 0, 3⟩ : LayoutCfg ℝ)
     (fun _ => 1) (fun _ => []) 0 0 2 ⟨∅, [], 0⟩ 7 (by simp),
   (claim_C6_sibling_angles 1 0 1 3 1).2.2.2.2 (by norm_num)⟩

/-! ## Claim C1: the key set of layout_tree -/

/-- Soundness of placement: if every recorded node is reachable and the
current node is reachable, every node recorded by the recursion is
reachable. -/
theorem place_reach_sound {α : Type} [LinearOrderedField α] (cfg : LayoutCfg α)
    (cosF sinF : α → α) (rng : ℕ → α) (ts : ℕ → List ℕ) (root : ℕ)
    (node_id : ℕ) (sx sy a L : α) (d : ℕ) (st : PlaceState α)
    (hn : Reach ts root node_id) (hst : ∀ x ∈ st.pos, Reach ts root x.1) :
    ∀ x ∈ (place_nodes_recursively cfg cosF sinF rng ts node_id sx sy a L d st).pos,
      Reach ts root x.1 := by
  revert hn hst
  refine place_nodes_recursively.induct cfg cosF sinF rng ts
    (fun node_id sx sy a L d st => Reach ts root node_id →
      (∀ x ∈ st.pos, Reach ts root x.1) →
      ∀ x ∈ (place_nodes_recursively cfg cosF sinF rng ts node_id sx sy a L d st).pos,
        Reach ts root x.1)
    (fun sx sy a L cd nb i cs st => (∀ c ∈ cs, Reach ts root c) →
      (∀ x ∈ st.pos, Reach ts root x.1) →
      ∀ x ∈ (place_children cfg cosF sinF rng ts sx sy a L cd nb i cs st).pos,
        Reach ts root x.1)
    ?_ ?_ ?_ ?_ ?_ ?_ node_id sx sy a L d st
  · intro n sx sy a L d st hguard hn hst x hx
    rw [place_nodes_recursively, if_pos hguard] at hx
    exact hst x hx
  · intro n sx sy a L d st hguard
    dsimp only
    intro hemp hn hst x hx
    rw [place_nodes_recursively, if_neg hguard] at hx
    dsimp only at hx
    rw [if_pos hemp] at hx
    exact hst x hx
  · intro n sx sy a L d st hguard
    dsimp only
    intro hemp ih hn hst x hx
    rw [place_nodes_recursively, if_neg hguard] at hx
    dsimp only at hx
    rw [if_neg hemp] at hx
    exact ih (fun c hc => Reach.step hn hc) hst x hx
  · intro sx sy a L cd nb i st hcs hst x hx
    rw [place_children] at hx
    exact hst x hx
  · intro sx sy a L cd nb i st cid rest hmem ih hcs hst x hx
    rw [place_children, if_pos hmem] at hx
    exact ih (fun c hc => hcs c (List.mem_cons_of_mem _ hc)) hst x hx
  · intro sx sy a L cd nb i st cid rest hmem
    dsimp only
    intro ih1 ih1b ih2 hcs hst x hx
    rw [place_children, if_neg hmem] at hx
    dsimp only at hx
    have hcid : Reach ts root cid := hcs cid (List.mem_cons_self cid rest)
    have hst1 : ∀ y ∈ st.pos ++ [(cid,
        (sx + L * cosF (a + branch_delta cfg.branch_angle nb i),
         sy + L * sinF (a + branch_delta cfg.branch_angle nb i)))],
        Reach ts root y.1 := by
      intro y hy
      rcases List.mem_append.mp hy with h | h
      · exact hst y h
      · rw [List.mem_singleton.mp h]
        exact hcid
    have hst2 := ih1 hcid hst1
    exact ih2 (fun c hc => hcs c (List.mem_cons_of_mem _ hc)) hst2 x hx

/-- The recursion keeps node_positions' key list and positioned_nodes in
lockstep: a node has a recorded position exactly when it is in the positioned
set. -/
theorem place_lockstep {α : Type} [LinearOrderedField α] (cfg : LayoutCfg α)
    (cosF sinF : α → α) (rng : ℕ → α) (ts : ℕ → List ℕ)
    (node_id : ℕ) (sx sy a L : α) (d : ℕ) (st : PlaceState α)
    (hst : ∀ n, n ∈ st.positioned ↔ n ∈ st.pos.map Prod.fst) :
    ∀ n, n ∈ (place_nodes_recursively cfg cosF sinF rng ts node_id sx sy a L d st).positioned ↔
      n ∈ (place_nodes_recursively cfg cosF sinF rng ts node_id sx sy a L d st).pos.map Prod.fst := by
  revert hst
  refine place_nodes_recursively.induct cfg cosF sinF rng ts
    (fun node_id sx sy a L d st =>
      (∀ n, n ∈ st.positioned ↔ n ∈ st.pos.map Prod.fst) →
      ∀ n, n ∈ (place_nodes_recursively cfg cosF sinF rng ts node_id sx sy a L d st).positioned ↔
        n ∈ (place_nodes_recursively cfg cosF sinF rng ts node_id sx sy a L d st).pos.map Prod.fst)
    (fun sx sy a L cd nb i cs st =>
      (∀ n, n ∈ st.positioned ↔ n ∈ st.pos.map Prod.fst) →
      ∀ n, n ∈ (place_children cfg cosF sinF rng ts sx sy a L cd nb i cs st).positioned ↔
        n ∈ (place_children cfg cosF sinF rng ts sx sy a L cd nb i cs st).pos.map Prod.fst)
    ?_ ?_ ?_ ?_ ?_ ?_ node_id sx sy a L d st
  · intro n sx sy a L d st hguard hst m
    rw [place_nodes_recursively, if_pos hguard]
    exact hst m
  · intro n sx sy a L d st hguard
    dsimp only
    intro hemp hst m
    rw [place_nodes_recursively, if_neg hguard]
    dsimp only
    rw [if_pos hemp]
    exact hst m
  · intro n sx sy a L d st hguard
    dsimp only
    intro hemp ih hst m
    rw [place_nodes_recursively, if_neg hguard]
    dsimp only
    rw [if_neg hemp]
    exact ih hst m
  · intro sx sy a L cd nb i st hst m
    rw [place_children]
    exact hst m
  · intro sx sy a L cd nb i st cid rest hmem ih hst m
    rw [place_children, if_pos hmem]
    exact ih hst m
  · intro sx sy a L cd nb i st cid rest hmem
    dsimp only
    intro ih1 ih1b ih2 hst m
    rw [place_children, if_neg hmem]
    dsimp only
    apply ih2
    apply ih1
    intro n
    rw [Finset.mem_insert, List.map_append, List.mem_append]
    constructor
    · intro h
      rcases h with h | h
      · right
        rw [h]
        exact List.mem_singleton.mpr rfl
      · left
        exact (hst n).mp h
    · intro h
      rcases h with h | h
      · right
        exact (hst n).mpr h
      · left
        simpa using h

/-- With the cutoffs disabled (min_branch_length <= 0, positive length decay
draws, max_depth larger than the node count) the recursion positions every
child of the current node, keeps the positioned set inside the node set, and
leaves every newly positioned node fully processed (all its children
positioned). -/
theorem place_complete {α : Type} [LinearOrderedField α] (cfg : LayoutCfg α)
    (cosF sinF : α → α) (rng : ℕ → α) (ts : ℕ → List ℕ) (nodes : List ℕ)
    (hts : ∀ m c, c ∈ ts m → c ∈ nodes)
    (hmin : cfg.min_branch_length ≤ 0)
    (hrng : ∀ j, 0 < random_uniform (8/10 : α) cfg.branch_factor (rng j))
    (hmd : nodes.length < cfg.max_depth) :
    ∀ (node_id : ℕ) (sx sy a L : α) (d : ℕ) (st : PlaceState α),
      0 < L → d ≤ st.positioned.card → (∀ y ∈ st.positioned, y ∈ nodes) →
      (st.positioned ⊆ (place_nodes_recursively cfg cosF sinF rng ts node_id sx sy a L d st).positioned ∧
       (∀ y ∈ (place_nodes_recursively cfg cosF sinF rng ts node_id sx sy a L d st).positioned, y ∈ nodes) ∧
       (∀ c ∈ ts node_id, c ∈ (place_nodes_recursively cfg cosF sinF rng ts node_id sx sy a L d st).positioned) ∧
       (∀ m ∈ (place_nodes_recursively cfg cosF sinF rng ts node_id sx sy a L d st).positioned,
         m ∈ st.positioned ∨ ∀ c ∈ ts m,
           c ∈ (place_nodes_recursively cfg cosF sinF rng ts node_id sx sy a L d st).positioned)) := by
  have hcard : ∀ (P : Finset ℕ), (∀ y ∈ P, y ∈ nodes) → P.card ≤ nodes.length := by
    intro P hP
    exact le_trans (Finset.card_le_card (fun y hy => List.mem_toFinset.mpr (hP y hy)))
      nodes.toFinset_card_le
  intro node_id sx sy a L d st
  refine place_nodes_recursively.induct cfg cosF sinF rng ts
    (fun node_id sx sy a L d st =>
      0 < L → d ≤ st.positioned.card → (∀ y ∈ st.positioned, y ∈ nodes) →
      (st.positioned ⊆ (place_nodes_recursively cfg cosF sinF rng ts node_id sx sy a L d st).positioned ∧
       (∀ y ∈ (place_nodes_recursively cfg cosF sinF rng ts node_id sx sy a L d st).positioned, y ∈ nodes) ∧
       (∀ c ∈ ts node_id, c ∈ (place_nodes_recursively cfg cosF sinF rng ts node_id sx sy a L d st).positioned) ∧
       (∀ m ∈ (place_nodes_recursively cfg cosF sinF rng ts node_id sx sy a L d st).positioned,
         m ∈ st.positioned ∨ ∀ c ∈ ts m,
           c ∈ (place_nodes_recursively cfg cosF sinF rng ts node_id sx sy a L d st).positioned)))
    (fun sx sy a L cd nb i cs st =>
      0 < L → cd ≤ st.positioned.card + 1 → (∀ y ∈ st.positioned, y ∈ nodes) →
      (∀ c ∈ cs, c ∈ nodes) →
      (st.positioned ⊆ (place_children cfg cosF sinF rng ts sx sy a L cd nb i cs st).positioned ∧
       (∀ y ∈ (place_children cfg cosF sinF rng ts sx sy a L cd nb i cs st).positioned, y ∈ nodes) ∧
       (∀ c ∈ cs, c ∈ (place_children cfg cosF sinF rng ts sx sy a L cd nb i cs st).positioned) ∧
       (∀ m ∈ (place_children cfg cosF sinF rng ts sx sy a L cd nb i cs st).positioned,
         m ∈ st.positioned ∨ ∀ c ∈ ts m,
           c ∈ (place_children cfg cosF sinF rng ts sx sy a L cd nb i cs st).positioned)))
    ?_ ?_ ?_ ?_ ?_ ?_ node_id sx sy a L d st
  · intro n sx sy a L d st hguard hL hd hsub
    exfalso
    rcases hguard with h | h
    · have h1 := hcard st.positioned hsub
      omega
    · have : cfg.min_branch_length < cfg.min_branch_length :=
        lt_of_le_of_lt (le_trans hmin (le_of_lt hL)) h
      exact lt_irrefl _ this
  · intro n sx sy a L d st hguard
    dsimp only
    intro hemp hL hd hsub
    rw [place_nodes_recursively, if_neg hguard]
    dsimp only
    rw [if_pos hemp]
    refine ⟨Finset.Subset.refl _, hsub, ?_, fun m hm => Or.inl hm⟩
    intro c hc
    rw [List.isEmpty_iff] at hemp
    rw [hemp] at hc
    cases hc
  · intro n sx sy a L d st hguard
    dsimp only
    intro hemp ih hL hd hsub
    rw [place_nodes_recursively, if_neg hguard]
    dsimp only
    rw [if_neg hemp]
    have key := ih hL (by omega) hsub (fun c hc => hts n c hc)
    exact ⟨key.1, key.2.1, key.2.2.1, key.2.2.2⟩
  · intro sx sy a L cd nb i st hL hd hsub hcs
    rw [place_children]
    refine ⟨Finset.Subset.refl _, hsub, ?_, fun m hm => Or.inl hm⟩
    intro c hc
    cases hc
  · intro sx sy a L cd nb i st cid rest hmem ih hL hd hsub hcs
    rw [place_children, if_pos hmem]
    have key := ih hL hd hsub (fun c hc => hcs c (List.mem_cons_of_mem _ hc))
    refine ⟨key.1, key.2.1, ?_, key.2.2.2⟩
    intro c hc
    rcases List.mem_cons.mp hc with h | h
    · rw [h]
      exact key.1 hmem
    · exact key.2.2.1 c h
  · intro sx sy a L cd nb i st cid rest hmem
    dsimp only
    intro ih1 ih1b ih2 hL hd hsub hcs
    rw [place_children, if_neg hmem]
    dsimp only
    have hLnew : 0 < L * random_uniform (8/10 : α) cfg.branch_factor (rng st.rix) :=
      mul_pos hL (hrng st.rix)
    have hcard1 : (insert cid st.positioned).card = st.positioned.card + 1 :=
      Finset.card_insert_of_not_mem hmem
    have hsub1 : ∀ y ∈ insert cid st.positioned, y ∈ nodes := by
      intro y hy
      rcases Finset.mem_insert.mp hy with h | h
      · rw [h]
        exact hcs cid (List.mem_cons_self cid rest)
      · exact hsub y h
    have key1 := ih1 hLnew (by
      show cd ≤ (insert cid st.positioned).card
      rw [hcard1]
      omega) hsub1
    have hsub2 := key1.2.1
    have hmono1 : st.positioned ⊆
        (place_nodes_recursively cfg cosF sinF rng ts cid _ _ _ _ cd _).positioned :=
      Finset.Subset.trans (Finset.subset_insert cid st.positioned) key1.1
    have key2 := ih2 hL
      (by
        have hcc := Finset.card_le_card hmono1
        omega)
      hsub2 (fun c hc => hcs c (List.mem_cons_of_mem _ hc))
    refine ⟨Finset.Subset.trans hmono1 key2.1, key2.2.1, ?_, ?_⟩
    · intro c hc
      rcases List.mem_cons.mp hc with h | h
      · rw [h]
        exact key2.1 (key1.1 (Finset.mem_insert_self cid st.positioned))
      · exact key2.2.2.1 c h
    · intro m hm
      rcases key2.2.2.2 m hm with h2 | h2
      · rcases key1.2.2.2 m h2 with h1 | h1
        · rcases Finset.mem_insert.mp h1 with h0 | h0
          · right
            intro c hc
            rw [h0] at hc
            exact key2.1 (key1.2.2.1 c hc)
          · left
            exact h0
        · right
          intro c hc
          exact key2.1 (h1 c hc)
      · right
        exact h2

/-- Children recorded by build_tree_structure are input node ids. -/
theorem build_children_mem {root_node : ℕ} {nodes : List ℕ} {links : List (ℕ × ℕ)}
    {m c : ℕ} (hc : c ∈ build_tree_structure root_node nodes links m) : c ∈ nodes := by
  rw [build_tree_structure_apply] at hc
  obtain ⟨l, hl, hlc⟩ := List.mem_map.mp hc
  have := List.of_mem_filter hl
  simp only [Bool.and_eq_true, decide_eq_true_eq] at this
  rw [← hlc]
  exact this.1.2

/-- The base length chosen by calculate_dynamic_parameters is one of the four
configured values, hence positive. -/
theorem calculate_dynamic_parameters_base_pos (c : ℤ) :
    0 < (calculate_dynamic_parameters c).1 := by
  rw [calculate_dynamic_parameters]
  cases hfind : scaling_configs.find? (fun e => band_matches e.1 c) with
  | none => norm_num
  | some e =>
    have hmem := List.mem_of_find?_eq_some hfind
    rw [scaling_configs] at hmem
    simp only [List.mem_cons, List.not_mem_nil, or_false] at hmem
    rcases hmem with h | h | h | h <;> rw [h] <;> norm_num

/-- The chosen layout root is an input node id (given that the set
enumeration is a permutation). -/
theorem find_root_headI_mem (nodes : List ℕ) (links : List (ℕ × ℕ))
    (setOrd : List ℕ → List ℕ) (hperm : ∀ l, (setOrd l).Perm l) (hne : nodes ≠ []) :
    (find_root_nodes nodes links setOrd).headI ∈ nodes := by
  have hhead : ∀ (l : List ℕ), l ≠ [] → l.headI ∈ l := by
    intro l hl
    cases l with
    | nil => exact absurd rfl hl
    | cons a t => exact List.mem_cons_self a t
  rw [find_root_nodes]
  by_cases hemp : (setOrd (nodes.filter (fun n => n ∉ links.map (fun l => l.2)))).isEmpty = true
  · rw [if_pos hemp]
    exact hhead nodes hne
  · rw [if_neg hemp]
    have hne2 : setOrd (nodes.filter (fun n => n ∉ links.map (fun l => l.2))) ≠ [] := by
      intro hcontra
      exact hemp (by rw [hcontra]; rfl)
    have hmem := (hperm _).subset (hhead _ hne2)
    exact List.mem_of_mem_filter hmem

/-- C1 counterexample: with nodes {0, 1}, the single edge (0, 1) and
max_depth = 1, node 1 is reachable from the root 0 but receives no position
(the depth cutoff stops the recursion before placing any child). -/
theorem claim_C1_counterexample :
    Reach (build_tree_structure 0 [0, 1] [(0, 1)]) 0 1 ∧
    1 ∉ (layout_tree (⟨1, 17/20, 30, 1⟩ : LayoutCfg ℚ) (fun _ => 0) (fun _ => 0) 0
      (fun _ => 4/5) (fun l => l) [0, 1] [(0, 1)] 0 0).map Prod.fst := by
  constructor
  · exact Reach.step Reach.refl (by decide)
  · rw [layout_tree]
    rw [if_neg (by decide)]
    dsimp only
    rw [place_nodes_recursively, if_pos (Or.inl (by decide))]
    decide

/-- C1 amended: the mapping returned by layout_tree always contains the
chosen root at the origin, and every key is reachable from that root via the
constructed tree structure; conversely, every reachable node receives a
position whenever the two cutoffs cannot fire (min_branch_length <= 0 with
positive decay draws, and max_depth exceeding the node count).  Without that
proviso a reachable node can be cut off, as the counterexample shows. -/
theorem claim_C1_amended {α : Type} [LinearOrderedField α] (cfg : LayoutCfg α)
    (cosF sinF : α → α) (piA : α) (rng : ℕ → α) (setOrd : List ℕ → List ℕ)
    (nodes : List ℕ) (links : List (ℕ × ℕ)) (rx ry : α)
    (hperm : ∀ l, (setOrd l).Perm l) (hne : nodes ≠ []) :
    (((find_root_nodes nodes links setOrd).headI, (rx, ry)) ∈
      layout_tree cfg cosF sinF piA rng setOrd nodes links rx ry) ∧
    (∀ x ∈ layout_tree cfg cosF sinF piA rng setOrd nodes links rx ry,
      Reach (build_tree_structure (find_root_nodes nodes links setOrd).headI nodes links)
        (find_root_nodes nodes links setOrd).headI x.1) ∧
    (cfg.min_branch_length ≤ 0 →
     (∀ j, 0 < random_uniform (8/10 : α) cfg.branch_factor (rng j)) →
     nodes.length < cfg.max_depth →
     ∀ n, Reach (build_tree_structure (find_root_nodes nodes links setOrd).headI nodes links)
        (find_root_nodes nodes links setOrd).headI n →
       n ∈ (layout_tree cfg cosF sinF piA rng setOrd nodes links rx ry).map Prod.fst) := by
  have hnotemp : ¬(nodes.isEmpty = true) := by
    intro hcontra
    exact hne (List.isEmpty_iff.mp hcontra)
  rw [layout_tree, if_neg hnotemp]
  dsimp only
  refine ⟨?_, ?_, ?_⟩
  · apply place_nodes_pos_mono
    dsimp only
    exact List.mem_singleton.mpr rfl
  · intro x hx
    refine place_reach_sound cfg cosF sinF rng
      (build_tree_structure (find_root_nodes nodes links setOrd).headI nodes links)
      (find_root_nodes nodes links setOrd).headI
      (find_root_nodes nodes links setOrd).headI rx ry (-(piA / 2))
      (((calculate_dynamic_parameters (nodes.length : ℤ)).1 : α)) 1 _ Reach.refl ?_ x hx
    intro y hy
    dsimp only at hy
    rw [List.mem_singleton.mp hy]
    exact Reach.refl
  · intro hmin hrng hmd n hreach
    have hbase : (0 : α) < ((calculate_dynamic_parameters (nodes.length : ℤ)).1 : α) := by
      have := calculate_dynamic_parameters_base_pos (nodes.length : ℤ)
      exact_mod_cast this
    have key := place_complete cfg cosF sinF rng
      (build_tree_structure (find_root_nodes nodes links setOrd).headI nodes links)
      nodes (fun m c hc => build_children_mem hc) hmin hrng hmd
      (find_root_nodes nodes links setOrd).headI rx ry (-(piA / 2))
      (((calculate_dynamic_parameters (nodes.length : ℤ)).1 : α)) 1
      ⟨{(find_root_nodes nodes links setOrd).headI},
        [((find_root_nodes nodes links setOrd).headI, (rx, ry))], 0⟩
      hbase (by dsimp only; rw [Finset.card_singleton]) (by
        intro y hy
        dsimp only at hy
        rw [Finset.mem_singleton.mp hy]
        exact find_root_headI_mem nodes links setOrd hperm hne)
    have hS : ∀ m, Reach
        (build_tree_structure (find_root_nodes nodes links setOrd).headI nodes links)
        (find_root_nodes nodes links setOrd).headI m →
        m ∈ (place_nodes_recursively cfg cosF sinF rng
          (build_tree_structure (find_root_nodes nodes links setOrd).headI nodes links)
          (find_root_nodes nodes links setOrd).headI rx ry (-(piA / 2))
          (((calculate_dynamic_parameters (nodes.length : ℤ)).1 : α)) 1
          ⟨{(find_root_nodes nodes links setOrd).headI},
            [((find_root_nodes nodes links setOrd).headI, (rx, ry))], 0⟩).positioned := by
      intro m hm
      induction hm with
      | refl => exact key.1 (Finset.mem_singleton_self _)
      | step hm hc ihm =>
        rcases key.2.2.2 _ ihm with h | h
        · dsimp only at h
          rw [Finset.mem_singleton] at h
          subst h
          exact key.2.2.1 _ hc
        · exact h _ hc
    have hlock := place_lockstep cfg cosF sinF rng
      (build_tree_structure (find_root_nodes nodes links setOrd).headI nodes links)
      (find_root_nodes nodes links setOrd).headI rx ry (-(piA / 2))
      (((calculate_dynamic_parameters (nodes.length : ℤ)).1 : α)) 1
      ⟨{(find_root_nodes nodes links setOrd).headI},
        [((find_root_nodes nodes links setOrd).headI, (rx, ry))], 0⟩
      (by
        intro m
        dsimp only
        rw [Finset.mem_singleton, List.map_singleton, List.mem_singleton])
    exact (hlock n).mp (hS n hreach)

/-- Witness for C1 amended on nodes {0, 1} with edge (0, 1), cutoffs
disabled: the root entry is present and the reachable node 1 receives a
position. -/
theorem claim_C1_amended_witness :
    (((find_root_nodes [0, 1] [(0, 1)] (fun l => l)).headI, ((0 : ℚ), (0 : ℚ))) ∈
      layout_tree (⟨1, 17/20, 0, 3⟩ : LayoutCfg ℚ) (fun _ => 0) (fun _ => 0) 0
        (fun _ => 1) (fun l => l) [0, 1] [(0, 1)] 0 0) ∧
    (1 ∈ (layout_tree (⟨1, 17/20, 0, 3⟩ : LayoutCfg ℚ) (fun _ => 0) (fun _ => 0) 0
        (fun _ => 1) (fun l => l) [0, 1] [(0, 1)] 0 0).map Prod.fst) :=
  ⟨(claim_C1_amended (⟨1, 17/20, 0, 3⟩ : LayoutCfg ℚ) (fun _ => 0) (fun _ => 0) 0
      (fun _ => 1) (fun l => l) [0, 1] [(0, 1)] 0 0
      (fun l => List.Perm.refl l) (by decide)).1,
   (claim_C1_amended (⟨1, 17/20, 0, 3⟩ : LayoutCfg ℚ) (fun _ => 0) (fun _ => 0) 0
      (fun _ => 1) (fun l => l) [0, 1] [(0, 1)] 0 0
      (fun l => List.Perm.refl l) (by decide)).2.2
     (by norm_num) (fun j => by norm_num [random_uniform]) (by norm_num)
     1 (Reach.step Reach.refl (by decide))⟩

end TreeReaction
